import Mathlib

/-!
Shallow embedding of the anttikivi/semver Go library: the data model and the
comparator/renderer of semver.go, the hand-written parser `parse`, and the
parse-free validator of validation.go, together with proofs about the
specification claims.  Input strings are modelled as lists of characters; the
parser rejects non-ASCII input up front, so on every input it accepts a
character coincides with a Go byte.
-/

namespace Semver

/-- Error kinds observable from the parsing functions (semver.go:92-100).
`invalidVersion` models `ErrInvalidVersion`, `parserFailed` models
`ErrParser`, and `rangeError` models `strconv.ErrRange`, which the code wraps
unchanged (not through ErrInvalidVersion) when `strconv.ParseUint` overflows
(semver.go:432-435 and semver.go:574-580). -/
inductive Err where
  | invalidVersion
  | parserFailed
  | rangeError
deriving DecidableEq

/-- Pre-release identifier variants (semver.go:146-152): `alphanumeric` holds
the raw characters of the identifier, `numeric` the value parsed by
`strconv.ParseUint`. -/
inductive PrereleaseIdentifier where
  | alphanumeric (v : List Char)
  | numeric (v : Nat)
deriving DecidableEq

/-- A parsed version (semver.go:104-110).  Go distinguishes nil slices from
non-nil empty slices, and `Version.Compare` tests `Prerelease == nil`
directly (semver.go:222-228), so both slice fields are modelled as `Option`
with `none` standing for Go's nil.  Major/minor/patch are uint64 in Go;
they are modelled as `Nat`: the only producer of these fields is
`strconv.ParseUint(_, 10, 64)`, which never returns a value ≥ 2^64, and the
code does no arithmetic on them, so no wrap-around can occur. -/
structure Version where
  major : Nat
  minor : Nat
  patch : Nat
  prerelease : Option (List PrereleaseIdentifier)
  build : Option (List (List Char))
deriving DecidableEq

/-- Go treats a nil slice exactly like an empty one in `len`, `range`,
`slices.Equal` and `slices.EqualFunc`; this is the list such a
nil-or-not slice ranges over. -/
def optList {α : Type} : Option (List α) → List α
  | none => []
  | some l => l

/-- Model of Go `cmp.Compare` on uint64: -1, 0 or +1 (used at
semver.go:210-219 and semver.go:709). -/
def cmpNat (a b : Nat) : Int :=
  if a < b then -1 else if b < a then 1 else 0

/-- Model of Go `cmp.Compare` on strings (semver.go:661): byte-lexicographic
order; all stored identifiers are ASCII, so bytes coincide with characters. -/
def cmpChars : List Char → List Char → Int
  | [], [] => 0
  | [], _ :: _ => -1
  | _ :: _, [] => 1
  | a :: as, b :: bs =>
    if a.toNat < b.toNat then -1
    else if b.toNat < a.toNat then 1
    else cmpChars as bs

/-- Identifier comparison (semver.go:649-662 and semver.go:697-710): an
alphanumeric identifier is greater than any numeric one; like kinds compare
by `cmp.Compare`.  The Go panic branches (type assertion on a third
implementation of the interface) are unreachable: the interface has exactly
the two implementations modelled here. -/
def PrereleaseIdentifier.cmp : PrereleaseIdentifier → PrereleaseIdentifier → Int
  | .alphanumeric _, .numeric _ => 1
  | .alphanumeric a, .alphanumeric b => cmpChars a b
  | .numeric _, .alphanumeric _ => -1
  | .numeric a, .numeric b => cmpNat a b

/-- Identifier equality (semver.go:665-672 and semver.go:713-720): same kind
and same value. -/
def PrereleaseIdentifier.iequal : PrereleaseIdentifier → PrereleaseIdentifier → Bool
  | .alphanumeric a, .alphanumeric b => a == b
  | .numeric a, .numeric b => a == b
  | _, _ => false

/-- Model of `comparePrereleaseIdentifiers` (semver.go:737-755) including the
padding values: `none` models the nil identifier used by
`Prerelease.compare` past the end of the shorter sequence.  Go first tests
interface equality `x == y` (structural equality of the two value types),
then the nil cases; its `return 1` for x and y both nil is dead code because
that case already satisfied `x == y`. -/
def comparePrereleaseIdentifiers :
    Option PrereleaseIdentifier → Option PrereleaseIdentifier → Int
  | none, none => 0
  | none, some _ => -1
  | some _, none => 1
  | some x, some y => if x = y then 0 else x.cmp y

/-- Loop body of `Prerelease.compare` (semver.go:607-624) over the list of
remaining indices: at index i the identifier is p[i] when i < len(p) and the
nil identifier (`none`) otherwise, and the first nonzero comparison is
returned. -/
def prereleaseLoop (p o : List PrereleaseIdentifier) : List Nat → Int
  | [] => 0
  | i :: rest =>
    let d := comparePrereleaseIdentifiers p[i]? o[i]?
    if d = 0 then prereleaseLoop p o rest else d

/-- Model of `Prerelease.compare` (semver.go:606-627): run the loop body for
i in range max(len p, len o). -/
def prereleaseCompare (p o : List PrereleaseIdentifier) : Int :=
  prereleaseLoop p o (List.range (max p.length o.length))

/-- Model of `Prerelease.equal` (semver.go:630-634): `slices.EqualFunc` with
the per-identifier `equal` method. -/
def prereleaseEqual : List PrereleaseIdentifier → List PrereleaseIdentifier → Bool
  | [], [] => true
  | x :: xs, y :: ys => x.iequal y && prereleaseEqual xs ys
  | _, _ => false

/-- Model of `Version.Compare` (semver.go:207-231) on Version values. -/
def Version.Compare (v w : Version) : Int :=
  let d1 := cmpNat v.major w.major
  if d1 ≠ 0 then d1
  else
    let d2 := cmpNat v.minor w.minor
    if d2 ≠ 0 then d2
    else
      let d3 := cmpNat v.patch w.patch
      if d3 ≠ 0 then d3
      else if v.prerelease = none ∧ w.prerelease ≠ none then 1
      else if v.prerelease ≠ none ∧ w.prerelease = none then -1
      else prereleaseCompare (optList v.prerelease) (optList w.prerelease)

/-- Model of `Version.Equal` (semver.go:262-269) on Version values (the Go
receiver-nil branch concerns pointers, not the value contents). -/
def Version.Equal (v w : Version) : Bool :=
  v.major == w.major && v.minor == w.minor && v.patch == w.patch &&
    prereleaseEqual (optList v.prerelease) (optList w.prerelease)

/-- Model of `Version.StrictEqual` (semver.go:273-281): `Equal` plus
`Build.equal`, which is `slices.Equal` (semver.go:637-639) and therefore
list equality with nil treated as empty. -/
def Version.StrictEqual (v w : Version) : Bool :=
  v.major == w.major && v.minor == w.minor && v.patch == w.patch &&
    prereleaseEqual (optList v.prerelease) (optList w.prerelease) &&
    optList v.build == optList w.build

/-- Decimal digit characters, used to model `strconv.FormatUint(_, 10)`. -/
def digitChar : Nat → Char
  | 0 => '0'
  | 1 => '1'
  | 2 => '2'
  | 3 => '3'
  | 4 => '4'
  | 5 => '5'
  | 6 => '6'
  | 7 => '7'
  | 8 => '8'
  | 9 => '9'
  | _ => '0'

/-- Model of `strconv.FormatUint(n, 10)`: the decimal digit string of n,
most significant digit first, with no sign and no leading zeros. -/
def natDigits (n : Nat) : List Char :=
  if n < 10 then [digitChar n]
  else natDigits (n / 10) ++ [digitChar (n % 10)]
decreasing_by exact Nat.div_lt_self (by omega) (by omega)

/-- String form of one identifier as produced by `Prerelease.String`
(semver.go:314-328): the raw characters for an alphanumeric identifier, the
decimal form for a numeric one. -/
def renderIdentifier : PrereleaseIdentifier → List Char
  | .alphanumeric a => a
  | .numeric n => natDigits n

/-- Model of `Version.String` (semver.go:284-304): `major.minor.patch`, then
the pre-release identifiers joined by dots after a hyphen when there is at
least one, then the build identifiers joined by dots after a plus when there
is at least one (`Prerelease.String` at semver.go:307-331 and `Build.String`
at semver.go:334-350 do the joins). -/
def Version.render (v : Version) : List Char :=
  natDigits v.major ++ '.' :: natDigits v.minor ++ '.' :: natDigits v.patch ++
    (if (optList v.prerelease).length > 0 then
      '-' :: List.intercalate ['.'] ((optList v.prerelease).map renderIdentifier)
    else []) ++
    (if (optList v.build).length > 0 then
      '+' :: List.intercalate ['.'] (optList v.build)
    else [])

/-- Model of Go `isDigit` (semver.go:792-794): byte comparison
`'0' <= c && c <= '9'`, with '0' = 48 and '9' = 57. -/
def isDigit (c : Char) : Bool := 48 ≤ c.toNat && c.toNat ≤ 57

/-- Model of `isIdentifierCharacter` (semver.go:796-798): a digit, an ASCII
letter ('A' = 65, 'Z' = 90, 'a' = 97, 'z' = 122), or a hyphen. -/
def isIdentifierCharacter (c : Char) : Bool :=
  (48 ≤ c.toNat && c.toNat ≤ 57) || (65 ≤ c.toNat && c.toNat ≤ 90) ||
    (97 ≤ c.toNat && c.toNat ≤ 122) || c == '-'

/-- Model of `isASCII` (semver.go:782-790): every byte is at most
`unicode.MaxASCII` = 127; over an all-ASCII string, bytes and characters
coincide, and a string containing a non-ASCII character also contains a byte
above 127, so the character-level check accepts exactly the same strings. -/
def isASCII (s : List Char) : Bool := s.all (fun c => c.toNat ≤ 127)

/-- Model of `isNumericIdentifier` (semver.go:800-808). -/
def isNumericIdentifier (s : List Char) : Bool := s.all isDigit

/-- Model of `isAlphanumericIdentifier` (semver.go:772-780). -/
def isAlphanumericIdentifier (s : List Char) : Bool := s.all isIdentifierCharacter

/-- Model of `stripPrefix` (semver.go:837-858); it returns the suffix of the
input starting at the returned position.  The caller guarantees a nonempty
string (parse rejects "" first, semver.go:375-377), so the empty case below
is dead code. -/
def stripPrefix (s : List Char) : Except Err (List Char) :=
  match s with
  | [] => .error .invalidVersion
  | c :: rest =>
    if ¬ (isDigit c || c == 'v') then .error .invalidVersion
    else if c == 'v' then
      if rest = [] then .error .invalidVersion else .ok rest
    else .ok (c :: rest)

/-- Character class of the core scan at semver.go:390-397: the scan stops at
the first character that is neither a digit nor a dot. -/
def isCoreChar (c : Char) : Bool := isDigit c || c == '.'

/-- Decimal value of a digit string ('0'.toNat = 48). -/
def digitsToNat (l : List Char) : Nat :=
  l.foldl (fun a c => a * 10 + (c.toNat - 48)) 0

/-- Model of `strconv.ParseUint(s, 10, 64)` at this package's call sites,
which always pass a nonempty all-digit string (semver.go:418, 562): the
decimal value, or the range error when the value needs more than 64 bits. -/
def parseUint64 (l : List Char) : Except Err Nat :=
  if digitsToNat l < 2 ^ 64 then .ok (digitsToNat l) else .error .rangeError

/-- Model of the switch at semver.go:437-450: index j selects which of
major/minor/patch receives the parsed value; the default branch (ErrParser)
would need j ≥ 3, which the surrounding loop never produces because at most
three components survive the length check. -/
def assignNum (j u : Nat) : Nat × Nat × Nat → Except Err (Nat × Nat × Nat)
  | (ma, mi, pa) =>
    match j with
    | 0 => .ok (u, mi, pa)
    | 1 => .ok (ma, u, pa)
    | 2 => .ok (ma, mi, u)
    | _ => .error .parserFailed

/-- The core-number loop of `parse` (semver.go:413-451), with j the running
index: rejects an empty or non-numeric component and a leading zero, skips
the literal "0" (the accumulator already holds zero), and otherwise stores
the `strconv.ParseUint` value. -/
def parseNums : List (List Char) → Nat → Nat × Nat × Nat → Except Err (Nat × Nat × Nat)
  | [], _, acc => .ok acc
  | n :: rest, j, acc =>
    if n = [] then .error .invalidVersion
    else if ¬ isNumericIdentifier n then .error .invalidVersion
    else if n = ['0'] then parseNums rest (j + 1) acc
    else if n.head? = some '0' then .error .invalidVersion
    else
      match parseUint64 n with
      | .error e => .error e
      | .ok u =>
        match assignNum j u acc with
        | .error e => .error e
        | .ok acc2 => parseNums rest (j + 1) acc2

/-- Model of `parsePrereleaseIdentifier` (semver.go:551-588). -/
def parsePrereleaseIdentifier (s : List Char) : Except Err PrereleaseIdentifier :=
  if s = [] then .error .invalidVersion
  else if s = ['0'] then .ok (.numeric 0)
  else if isNumericIdentifier s then
    if s.head? = some '0' then .error .invalidVersion
    else
      match parseUint64 s with
      | .error e => .error e
      | .ok u => .ok (.numeric u)
  else if isAlphanumericIdentifier s then .ok (.alphanumeric s)
  else .error .invalidVersion

/-- The pre-release loop of `parse` (semver.go:479-486): parse each
dot-separated part in order, stopping at the first error. -/
def parsePrereleaseList : List (List Char) → Except Err (List PrereleaseIdentifier)
  | [] => .ok []
  | p :: rest =>
    match parsePrereleaseIdentifier p with
    | .error e => .error e
    | .ok id =>
      match parsePrereleaseList rest with
      | .error e => .error e
      | .ok ids => .ok (id :: ids)

/-- The validation loop of `parseBuild` (semver.go:816-830): every
dot-separated part must be nonempty and made of identifier characters. -/
def checkBuildParts : List (List Char) → Except Err Unit
  | [] => .ok ()
  | v :: rest =>
    if v = [] then .error .invalidVersion
    else if ¬ isAlphanumericIdentifier v then .error .invalidVersion
    else checkBuildParts rest

/-- Model of `parseBuild` (semver.go:810-833): `strings.Split` on dots, then
the per-part validation; on success the split itself is the result. -/
def parseBuild (s : List Char) : Except Err (List (List Char)) :=
  if s = [] then .error .invalidVersion
  else
    match checkBuildParts (s.splitOn '.') with
    | .error e => .error e
    | .ok _ => .ok (s.splitOn '.')

/-- Tail phase of `parse` after the core numbers (semver.go:459-501), given
the unconsumed suffix, whose head the caller has already checked to be '-'
or '+' if it exists: the optional pre-release segment (a '-' then the
characters up to the first '+' or the end, split on dots), then the optional
build segment (a '+' then the rest). -/
def parseAfterCore (tail : List Char) :
    Except Err (Option (List PrereleaseIdentifier) × Option (List (List Char))) :=
  let preE : Except Err (Option (List PrereleaseIdentifier)) :=
    if tail.head? = some '-' then
      match parsePrereleaseList ((tail.tail.takeWhile (fun c => c ≠ '+')).splitOn '.') with
      | .error e => .error e
      | .ok ids => .ok (some ids)
    else .ok none
  let tail2 := if tail.head? = some '-' then tail.tail.dropWhile (fun c => c ≠ '+') else tail
  match preE with
  | .error e => .error e
  | .ok pre =>
    if tail2.head? = some '+' then
      match parseBuild tail2.tail with
      | .error e => .error e
      | .ok b => .ok (pre, some b)
    else .ok (pre, none)

/-- Model of `parse` (semver.go:374-510).  The Go function tracks a byte
position into s; the model tracks the corresponding unconsumed suffix.  The
core scan at semver.go:388-397 finds the first position whose character is
neither a digit nor a dot, giving `takeWhile isCoreChar` as the scanned core
slice and `dropWhile isCoreChar` as the remainder; `strings.Split` on "."
is `List.splitOn`. -/
def parse (str : List Char) (minCore : Nat) : Except Err Version :=
  if str = [] then .error .invalidVersion
  else if ¬ isASCII str then .error .invalidVersion
  else
    match stripPrefix str with
    | .error e => .error e
    | .ok rest =>
      let nums := (rest.takeWhile isCoreChar).splitOn '.'
      let tail := rest.dropWhile isCoreChar
      if nums.length > 3 then .error .invalidVersion
      else if nums.length < minCore then .error .invalidVersion
      else
        match parseNums nums 0 (0, 0, 0) with
        | .error e => .error e
        | .ok acc =>
          if tail ≠ [] ∧ tail.head? ≠ some '-' ∧ tail.head? ≠ some '+' then
            .error .invalidVersion
          else
            match parseAfterCore tail with
            | .error e => .error e
            | .ok pb => .ok ⟨acc.1, acc.2.1, acc.2.2, pb.1, pb.2⟩

/-- Model of `Parse` (semver.go:179-186); the fmt.Errorf wrapper with %w
preserves the error kind. -/
def Parse (s : String) : Except Err Version := parse s.data 3

/-- Model of `ParseLax` (semver.go:191-198). -/
def ParseLax (s : String) : Except Err Version := parse s.data 0

/-- Model of `isStartValid` (validation.go:180-202) at IsValid's call site,
where no caller-supplied prefixes exist (IsValid at validation.go:22-24
passes none, so `slices.Contains(prefixes, prefix)` is always false and the
prefix must be exactly "v").  Returns the index of the first digit, or none
when the check fails; the Go position return value is unused on failure. -/
def isStartValid (ver : List Char) : Option Nat :=
  if ver = [] then none
  else
    match ver.findIdx? isDigit with
    | none => none
    | some pos =>
      if pos ≠ 0 then
        if ver.take pos = ['v'] then some pos else none
      else some pos

/-- Modes of `isVersionNumberValid` (validation.go:10-18): which characters
may end the digit run. -/
inductive NumberMode where
  | dot
  | ending
  | loose
deriving DecidableEq

/-- End-of-run test for each mode (validation.go:214-232). -/
def isNumEnd (mode : NumberMode) (c : Char) : Bool :=
  match mode with
  | .dot => c == '.'
  | .ending => c == '-' || c == '+'
  | .loose => c == '.' || c == '-' || c == '+'

/-- The scanning loop of `isVersionNumberValid`, with the position kept
abreast of the remaining suffix (the Go loop reads ver[pos] and increments
pos, which walks down exactly this suffix): advance while the character is
not the mode's end character, failing on a non-digit. -/
def scanDigits (mode : NumberMode) : List Char → Nat → Bool × Nat
  | [], pos => (true, pos)
  | c :: rest, pos =>
    if isNumEnd mode c then (true, pos)
    else if c.toNat < 48 || 57 < c.toNat then (false, pos)
    else scanDigits mode rest (pos + 1)

/-- Model of `isVersionNumberValid` (validation.go:209-242): the scan, then
the leading-zero check `pos-start > 1 && ver[start] == '0'`. -/
def isVersionNumberValid (ver : List Char) (pos : Nat) (mode : NumberMode) : Bool × Nat :=
  match scanDigits mode (ver.drop pos) pos with
  | (false, p) => (false, p)
  | (true, p) =>
    if p - pos > 1 && ver[pos]? == some '0' then (false, p) else (true, p)

/-- One non-dot step of the `isPrereleaseValid` loop body
(validation.go:269-284) on character b: update zero (a '0' opening an
identifier), update num (Go's condition parses as
`(num && 'A' <= b && b <= 'Z') || ('a' <= b && b <= 'z') || b == '-'`
because && binds tighter than ||), then reject a character outside
[0-9A-Za-z-], else bump the length.  Returns the updated
(num, zero, currentLen), or none when the loop returns false here. -/
def preStepState (b : Char) (num zero : Bool) (currentLen : Nat) :
    Option (Bool × Bool × Nat) :=
  let zero2 := if b == '0' && currentLen == 0 then true else zero
  let num2 :=
    if (num && 65 ≤ b.toNat && b.toNat ≤ 90) || (97 ≤ b.toNat && b.toNat ≤ 122) ||
        b == '-' then false
    else num
  if ¬ isIdentifierCharacter b then none
  else some (num2, zero2, currentLen + 1)

/-- End-of-loop verdict of `isPrereleaseValid` (validation.go:287-297): a
purely numeric identifier with a leading zero and length > 1, or an empty
identifier, is invalid. -/
def preVerdict (num zero : Bool) (currentLen : Nat) : Bool :=
  if zero && num && currentLen > 1 then false
  else if currentLen == 0 then false
  else true

/-- Model of `isPrereleaseValid` (validation.go:244-298), walking the suffix
of the string from the current position, with the Go loop state
(num, zero, currentLen) explicit.  The dot branch (validation.go:252-267)
resets the state, increments pos, and then runs `b = ver[pos]` BEFORE its
bounds test `b == '+' || pos >= len(ver)`; when the incremented pos equals
len(ver) — the suffix after the dot is empty — that index expression panics
at runtime, which this model reports as `none`. -/
def preScan : List Char → Nat → Bool → Bool → Nat → Option (Bool × Nat)
  | [], pos, num, zero, currentLen => some (preVerdict num zero currentLen, pos)
  | b :: rest, pos, num, zero, currentLen =>
    if b == '+' then some (preVerdict num zero currentLen, pos)
    else if b == '.' then
      if zero && num && currentLen > 1 then some (false, pos)
      else
        match rest with
        | [] => none
        | b2 :: rest2 =>
          if b2 == '+' then some (false, pos + 1)
          else
            match preStepState b2 true false 0 with
            | none => some (false, pos + 1)
            | some (num2, zero2, len2) => preScan rest2 (pos + 2) num2 zero2 len2
    else
      match preStepState b num zero currentLen with
      | none => some (false, pos)
      | some (num2, zero2, len2) => preScan rest (pos + 1) num2 zero2 len2

/-- Model of `isBuildMetadataValid` (validation.go:300-310): every character
from pos on is an identifier character or a dot. -/
def isBuildMetadataValid (ver : List Char) (pos : Nat) : Bool :=
  (ver.drop pos).all (fun b => isIdentifierCharacter b || b == '.')

/-- Trailing phase of `isValid` (validation.go:94-106): done at the end of
the string; a '+' starts the build check; any other leftover character is
accepted as-is by the Go code (unreachable after a correct scan). -/
def isValidTail (ver : List Char) (pos : Nat) : Bool :=
  if pos ≥ ver.length then true
  else if ver[pos]? = some '+' then isBuildMetadataValid ver (pos + 1)
  else true

/-- Model of `isValid` (validation.go:47-107) at IsValid's call site, with
the two iterations of the major/minor loop (validation.go:56-70) unrolled.
Result `none` models a runtime panic inside `isPrereleaseValid`. -/
def isValidScan (ver : List Char) : Option Bool :=
  match isStartValid ver with
  | none => some false
  | some pos0 =>
    match isVersionNumberValid ver pos0 .dot with
    | (false, _) => some false
    | (true, pos1) =>
      if pos1 ≥ ver.length then some false
      else
        match isVersionNumberValid ver (pos1 + 1) .dot with
        | (false, _) => some false
        | (true, pos2) =>
          if pos2 ≥ ver.length then some false
          else
            match isVersionNumberValid ver (pos2 + 1) .ending with
            | (false, _) => some false
            | (true, pos3) =>
              if pos3 ≥ ver.length then some true
              else if ver[pos3]? = some '-' then
                match preScan (ver.drop (pos3 + 1)) (pos3 + 1) true false 0 with
                | none => none
                | some (false, _) => some false
                | some (true, pos4) => some (isValidTail ver pos4)
              else some (isValidTail ver pos3)

/-- Model of `IsValid` (validation.go:22-24): `some b` when the Go function
returns b, `none` when it panics. -/
def IsValid (s : String) : Option Bool := isValidScan s.data

/-- Number of dot-separated components in the core segment the parser's scan
extracts (the length of `nums` at semver.go:399), for inputs whose prefix
step succeeds. -/
def coreCount (str : List Char) : Nat :=
  match stripPrefix str with
  | .error _ => 0
  | .ok rest => ((rest.takeWhile isCoreChar).splitOn '.').length

/-! Spec-side comparison, for the refinement claim about Compare.  These
definitions follow the wording of the specification (section 4.4), to be
compared with the code-side `Version.Compare` above. -/

/-- Spec wording: "Numeric identifiers compare by integer value;
Alphanumeric identifiers compare by byte-lexicographic order; a Numeric
identifier is always less than an Alphanumeric identifier regardless of
value". -/
def specIdentifierCompare : PrereleaseIdentifier → PrereleaseIdentifier → Int
  | .numeric a, .numeric b => cmpNat a b
  | .alphanumeric a, .alphanumeric b => cmpChars a b
  | .numeric _, .alphanumeric _ => -1
  | .alphanumeric _, .numeric _ => 1

/-- Spec wording: "compare pre-release sequences element-by-element up to
the shorter length ...; if all compared elements are equal, the sequence
with fewer elements is less". -/
def specSequenceCompare : List PrereleaseIdentifier → List PrereleaseIdentifier → Int
  | [], [] => 0
  | [], _ :: _ => -1
  | _ :: _, [] => 1
  | x :: xs, y :: ys =>
    let d := specIdentifierCompare x y
    if d = 0 then specSequenceCompare xs ys else d

/-- Spec wording of the precedence algorithm: "compare major, then minor,
then patch as unsigned integers; if equal, a version with an empty
pre-release sequence is greater than one with a non-empty sequence;
otherwise compare pre-release sequences element-by-element ... Build
metadata never participates in Compare." -/
def specPrecedenceCompare (v w : Version) : Int :=
  let d1 := cmpNat v.major w.major
  if d1 ≠ 0 then d1
  else
    let d2 := cmpNat v.minor w.minor
    if d2 ≠ 0 then d2
    else
      let d3 := cmpNat v.patch w.patch
      if d3 ≠ 0 then d3
      else
        let pv := optList v.prerelease
        let pw := optList w.prerelease
        if pv = [] ∧ pw ≠ [] then 1
        else if pv ≠ [] ∧ pw = [] then -1
        else specSequenceCompare pv pw

/-! Invariants every parser-produced Version satisfies; used to state the
helper lemmas below. -/

/-- Shape of an identifier as established by `parsePrereleaseIdentifier`:
numeric values fit in 64 bits; alphanumeric identifiers are nonempty,
contain only identifier characters (so in particular no separator), and are
not purely numeric (else that branch would have classified them numeric or
rejected them). -/
def WfIdent : PrereleaseIdentifier → Prop
  | .numeric n => n < 2 ^ 64
  | .alphanumeric a =>
    a ≠ [] ∧ isAlphanumericIdentifier a = true ∧ isNumericIdentifier a = false

/-- Shape of a parser-produced Version: 64-bit core components; a present
pre-release is a nonempty list of well-formed identifiers; a present build
is a nonempty list of nonempty identifier-character strings. -/
def WfVersion (v : Version) : Prop :=
  v.major < 2 ^ 64 ∧ v.minor < 2 ^ 64 ∧ v.patch < 2 ^ 64 ∧
    (∀ l, v.prerelease = some l → l ≠ [] ∧ ∀ id ∈ l, WfIdent id) ∧
    (∀ bl, v.build = some bl →
      bl ≠ [] ∧ ∀ p ∈ bl, p ≠ [] ∧ isAlphanumericIdentifier p = true)

/-! Concrete inputs referenced by the claims. -/

/-- Largest uint64, as a core component: accepted. -/
def maxInput : String := "18446744073709551615.0.0"

/-- One past the largest uint64: the parser rejects it, the parse-free
validator accepts it. -/
def overflowInput : String := "18446744073709551616.0.0"

/-- Pre-release ending in a dot: the validator's scan indexes one past the
end of the string. -/
def dotEndInput : String := "1.2.3-pre."

/-- Rejection fixtures from the spec. -/
def leadZeroInput : String := "01.2.3"

def preZeroInput : String := "1.2.3-0123"

def emptyPreInput : String := "1.2.3-"

def plusPrefixInput : String := "+1.0.0"

def underscoreInput : String := "1.0.0-alpha_beta"

/-- Lax-parse fixtures from the spec. -/
def laxOneInput : String := "v1"

def laxTwoInput : String := "1.2-beta"

/-- A full version with pre-release and build, exercising every render
segment. -/
def fullInput : String := "1.2.3-a.1+b.2"

/-- Inputs for instantiating the comparison theorems. -/
def alphaInput : String := "1.0.0-alpha"

def releaseInput : String := "1.0.0"

/-- A Version with no pre-release (Go nil slice) next to one carrying an
empty non-nil pre-release slice: `Equal` identifies them while `Compare`
does not. -/
def noPreVersion : Version := ⟨1, 0, 0, none, none⟩

/-- Directly constructed counterpart with a non-nil empty Prerelease: not a
parser output, but a legal value of the Version type. -/
def emptyPreVersion : Version := ⟨1, 0, 0, some [], none⟩

/-! Comparator toolkit. -/

theorem char_eq_of_toNat_eq {a b : Char} (h : a.toNat = b.toNat) : a = b :=
  Char.eq_of_val_eq (UInt32.eq_of_toBitVec_eq (BitVec.eq_of_toNat_eq h))

theorem cmpNat_self (a : Nat) : cmpNat a a = 0 := by
  simp [cmpNat]

theorem cmpNat_eq_zero_iff (a b : Nat) : cmpNat a b = 0 ↔ a = b := by
  unfold cmpNat
  by_cases h1 : a < b
  · rw [if_pos h1]
    exact iff_of_false (by decide) (by omega)
  · by_cases h2 : b < a
    · rw [if_neg h1, if_pos h2]
      exact iff_of_false (by decide) (by omega)
    · rw [if_neg h1, if_neg h2]
      exact iff_of_true rfl (by omega)

theorem cmpNat_neg (a b : Nat) : cmpNat a b = -cmpNat b a := by
  unfold cmpNat
  by_cases h1 : a < b
  · rw [if_pos h1, if_neg (by omega : ¬ b < a), if_pos h1] <;> decide
  · by_cases h2 : b < a
    · rw [if_neg h1, if_pos h2, if_pos h2] <;> decide
    · rw [if_neg h1, if_neg h2, if_neg h2, if_neg h1] <;> decide

theorem cmpChars_self (l : List Char) : cmpChars l l = 0 := by
  induction l with
  | nil => rfl
  | cons a as ih => simp [cmpChars, ih]

theorem cmpChars_eq_zero_iff (l m : List Char) : cmpChars l m = 0 ↔ l = m := by
  induction l generalizing m with
  | nil => cases m <;> simp [cmpChars]
  | cons a as ih =>
    cases m with
    | nil => simp [cmpChars]
    | cons b bs =>
      simp only [cmpChars]
      by_cases h1 : a.toNat < b.toNat
      · rw [if_pos h1]
        refine iff_of_false (by decide) ?_
        intro hc
        injection hc with hh _
        subst hh
        omega
      · by_cases h2 : b.toNat < a.toNat
        · rw [if_neg h1, if_pos h2]
          refine iff_of_false (by decide) ?_
          intro hc
          injection hc with hh _
          subst hh
          omega
        · rw [if_neg h1, if_neg h2]
          have hab : a = b := char_eq_of_toNat_eq (by omega)
          subst hab
          rw [ih]
          simp

theorem cmpChars_neg (l m : List Char) : cmpChars l m = -cmpChars m l := by
  induction l generalizing m with
  | nil => cases m <;> simp [cmpChars]
  | cons a as ih =>
    cases m with
    | nil => simp [cmpChars]
    | cons b bs =>
      simp only [cmpChars]
      by_cases h1 : a.toNat < b.toNat
      · rw [if_pos h1, if_neg (by omega : ¬ b.toNat < a.toNat), if_pos h1] <;> decide
      · by_cases h2 : b.toNat < a.toNat
        · rw [if_neg h1, if_pos h2, if_pos h2] <;> decide
        · rw [if_neg h1, if_neg h2, if_neg h2, if_neg h1]
          exact ih bs

theorem identCmp_eq_zero_iff (x y : PrereleaseIdentifier) :
    x.cmp y = 0 ↔ x = y := by
  cases x <;> cases y
  · simp [PrereleaseIdentifier.cmp, cmpChars_eq_zero_iff]
  · exact iff_of_false (by simp [PrereleaseIdentifier.cmp]) (by simp)
  · exact iff_of_false (by simp [PrereleaseIdentifier.cmp]) (by simp)
  · simp [PrereleaseIdentifier.cmp, cmpNat_eq_zero_iff]

theorem identCmp_neg (x y : PrereleaseIdentifier) : x.cmp y = -y.cmp x := by
  cases x <;> cases y
  · exact cmpChars_neg _ _
  · simp [PrereleaseIdentifier.cmp]
  · simp [PrereleaseIdentifier.cmp]
  · exact cmpNat_neg _ _

theorem cpi_eq_zero_iff (x y : Option PrereleaseIdentifier) :
    comparePrereleaseIdentifiers x y = 0 ↔ x = y := by
  cases x <;> cases y
  · simp [comparePrereleaseIdentifiers]
  · exact iff_of_false (by simp [comparePrereleaseIdentifiers]) (by simp)
  · exact iff_of_false (by simp [comparePrereleaseIdentifiers]) (by simp)
  · rename_i a b
    simp only [comparePrereleaseIdentifiers]
    by_cases h : a = b
    · rw [if_pos h]
      exact iff_of_true rfl (by simp [h])
    · rw [if_neg h, identCmp_eq_zero_iff]
      simp [h]

theorem cpi_neg (x y : Option PrereleaseIdentifier) :
    comparePrereleaseIdentifiers x y = -comparePrereleaseIdentifiers y x := by
  cases x <;> cases y
  · simp [comparePrereleaseIdentifiers]
  · simp [comparePrereleaseIdentifiers]
  · simp [comparePrereleaseIdentifiers]
  · rename_i a b
    simp only [comparePrereleaseIdentifiers]
    by_cases h : a = b
    · rw [if_pos h, if_pos h.symm]
      simp
    · rw [if_neg h, if_neg (fun hc => h hc.symm), identCmp_neg]

theorem prereleaseLoop_map_succ (p o : List PrereleaseIdentifier)
    (x y : PrereleaseIdentifier) (idxs : List Nat) :
    prereleaseLoop (x :: p) (y :: o) (idxs.map Nat.succ) = prereleaseLoop p o idxs := by
  induction idxs with
  | nil => rfl
  | cons i rest ih =>
    simp only [List.map_cons, prereleaseLoop, List.getElem?_cons_succ]
    rw [ih]

theorem prereleaseCompare_nil_nil : prereleaseCompare [] [] = 0 := rfl

theorem prereleaseCompare_nil_cons (y : PrereleaseIdentifier)
    (ys : List PrereleaseIdentifier) : prereleaseCompare [] (y :: ys) = -1 := by
  simp only [prereleaseCompare, List.length_nil, List.length_cons,
    Nat.max_eq_right (Nat.zero_le _), List.range_succ_eq_map]
  simp [prereleaseLoop, comparePrereleaseIdentifiers]

theorem prereleaseCompare_cons_nil (x : PrereleaseIdentifier)
    (xs : List PrereleaseIdentifier) : prereleaseCompare (x :: xs) [] = 1 := by
  simp only [prereleaseCompare, List.length_nil, List.length_cons,
    Nat.max_eq_left (Nat.zero_le _), List.range_succ_eq_map]
  simp [prereleaseLoop, comparePrereleaseIdentifiers]

theorem prereleaseCompare_cons_cons (x y : PrereleaseIdentifier)
    (xs ys : List PrereleaseIdentifier) :
    prereleaseCompare (x :: xs) (y :: ys) =
      if comparePrereleaseIdentifiers (some x) (some y) = 0 then prereleaseCompare xs ys
      else comparePrereleaseIdentifiers (some x) (some y) := by
  simp only [prereleaseCompare, List.length_cons]
  have hmax : max (xs.length + 1) (ys.length + 1) = max xs.length ys.length + 1 := by
    omega
  rw [hmax, List.range_succ_eq_map]
  simp only [prereleaseLoop, List.getElem?_cons_zero]
  rw [prereleaseLoop_map_succ]

theorem prereleaseCompare_eq_zero_iff (l m : List PrereleaseIdentifier) :
    prereleaseCompare l m = 0 ↔ l = m := by
  induction l generalizing m with
  | nil =>
    cases m with
    | nil => simp [prereleaseCompare_nil_nil]
    | cons y ys => rw [prereleaseCompare_nil_cons]; exact iff_of_false (by decide) (by simp)
  | cons x xs ih =>
    cases m with
    | nil => rw [prereleaseCompare_cons_nil]; exact iff_of_false (by decide) (by simp)
    | cons y ys =>
      rw [prereleaseCompare_cons_cons]
      by_cases h : comparePrereleaseIdentifiers (some x) (some y) = 0
      · have hxy : x = y := by
          have h2 := (cpi_eq_zero_iff (some x) (some y)).mp h
          injection h2
        rw [if_pos h, ih]
        simp [hxy]
      · have hxy : x ≠ y := fun hc =>
          h ((cpi_eq_zero_iff (some x) (some y)).mpr (by rw [hc]))
        rw [if_neg h]
        exact iff_of_false h (by simp [hxy])

theorem prereleaseCompare_neg (l m : List PrereleaseIdentifier) :
    prereleaseCompare l m = -prereleaseCompare m l := by
  induction l generalizing m with
  | nil =>
    cases m with
    | nil => simp [prereleaseCompare_nil_nil]
    | cons y ys => rw [prereleaseCompare_nil_cons, prereleaseCompare_cons_nil]
  | cons x xs ih =>
    cases m with
    | nil =>
      rw [prereleaseCompare_cons_nil, prereleaseCompare_nil_cons]
      decide
    | cons y ys =>
      rw [prereleaseCompare_cons_cons, prereleaseCompare_cons_cons]
      by_cases h : comparePrereleaseIdentifiers (some x) (some y) = 0
      · have h2 : comparePrereleaseIdentifiers (some y) (some x) = 0 := by
          rw [cpi_neg, h]
          decide
        rw [if_pos h, if_pos h2]
        exact ih ys
      · have h2 : comparePrereleaseIdentifiers (some y) (some x) ≠ 0 := by
          rw [cpi_neg (some y) (some x)]
          intro hc
          exact h (by omega)
        rw [if_neg h, if_neg h2, cpi_neg (some x) (some y)]

/-! Equality toolkit. -/

theorem iequal_iff (x y : PrereleaseIdentifier) : x.iequal y = true ↔ x = y := by
  cases x <;> cases y <;> simp [PrereleaseIdentifier.iequal]

theorem prereleaseEqual_iff (l m : List PrereleaseIdentifier) :
    prereleaseEqual l m = true ↔ l = m := by
  induction l generalizing m with
  | nil => cases m <;> simp [prereleaseEqual]
  | cons x xs ih =>
    cases m with
    | nil => simp [prereleaseEqual]
    | cons y ys => simp [prereleaseEqual, iequal_iff, ih]

theorem optList_eq_nil_iff {α : Type} (o : Option (List α)) :
    optList o = [] ↔ o = none ∨ o = some [] := by
  cases o <;> simp [optList]

/-! Version.Compare lemmas. -/

theorem compare_eq_zero_iff (v w : Version) :
    Version.Compare v w = 0 ↔
      v.major = w.major ∧ v.minor = w.minor ∧ v.patch = w.patch ∧
        (v.prerelease = none ↔ w.prerelease = none) ∧
        optList v.prerelease = optList w.prerelease := by
  simp only [Version.Compare]
  by_cases h1 : cmpNat v.major w.major = 0
  case neg =>
    rw [if_pos h1]
    exact iff_of_false h1 fun hc => h1 ((cmpNat_eq_zero_iff _ _).mpr hc.1)
  rw [if_neg (not_not_intro h1)]
  by_cases h2 : cmpNat v.minor w.minor = 0
  case neg =>
    rw [if_pos h2]
    exact iff_of_false h2 fun hc => h2 ((cmpNat_eq_zero_iff _ _).mpr hc.2.1)
  rw [if_neg (not_not_intro h2)]
  by_cases h3 : cmpNat v.patch w.patch = 0
  case neg =>
    rw [if_pos h3]
    exact iff_of_false h3 fun hc => h3 ((cmpNat_eq_zero_iff _ _).mpr hc.2.2.1)
  rw [if_neg (not_not_intro h3)]
  by_cases h4 : v.prerelease = none ∧ w.prerelease ≠ none
  · rw [if_pos h4]
    exact iff_of_false (by decide) fun hc => h4.2 (hc.2.2.2.1.mp h4.1)
  · rw [if_neg h4]
    by_cases h5 : v.prerelease ≠ none ∧ w.prerelease = none
    · rw [if_pos h5]
      exact iff_of_false (by decide) fun hc => h5.1 (hc.2.2.2.1.mpr h5.2)
    · rw [if_neg h5, prereleaseCompare_eq_zero_iff]
      constructor
      · intro hopt
        refine ⟨(cmpNat_eq_zero_iff _ _).mp h1, (cmpNat_eq_zero_iff _ _).mp h2,
          (cmpNat_eq_zero_iff _ _).mp h3, ?_, hopt⟩
        constructor
        · intro hv
          by_contra hw
          exact h4 ⟨hv, hw⟩
        · intro hw
          by_contra hv
          exact h5 ⟨hv, hw⟩
      · exact fun hc => hc.2.2.2.2

theorem compare_self (v : Version) : Version.Compare v v = 0 :=
  (compare_eq_zero_iff v v).mpr ⟨rfl, rfl, rfl, Iff.rfl, rfl⟩

theorem compare_neg (v w : Version) : Version.Compare v w = -Version.Compare w v := by
  simp only [Version.Compare]
  by_cases h1 : cmpNat v.major w.major = 0
  case neg =>
    rw [if_pos h1, if_pos (fun hc => h1 (by rw [cmpNat_neg, hc]; decide)), cmpNat_neg]
  have h1w : cmpNat w.major v.major = 0 := by
    rw [cmpNat_neg, h1]
    decide
  rw [if_neg (not_not_intro h1), if_neg (not_not_intro h1w)]
  by_cases h2 : cmpNat v.minor w.minor = 0
  case neg =>
    rw [if_pos h2, if_pos (fun hc => h2 (by rw [cmpNat_neg, hc]; decide)), cmpNat_neg]
  have h2w : cmpNat w.minor v.minor = 0 := by
    rw [cmpNat_neg, h2]
    decide
  rw [if_neg (not_not_intro h2), if_neg (not_not_intro h2w)]
  by_cases h3 : cmpNat v.patch w.patch = 0
  case neg =>
    rw [if_pos h3, if_pos (fun hc => h3 (by rw [cmpNat_neg, hc]; decide)), cmpNat_neg]
  have h3w : cmpNat w.patch v.patch = 0 := by
    rw [cmpNat_neg, h3]
    decide
  rw [if_neg (not_not_intro h3), if_neg (not_not_intro h3w)]
  by_cases h4 : v.prerelease = none
  · by_cases h5 : w.prerelease = none
    · rw [if_neg (by simp [h4, h5]), if_neg (by simp [h4, h5]),
        if_neg (by simp [h4, h5]), if_neg (by simp [h4, h5])]
      exact prereleaseCompare_neg _ _
    · rw [if_pos ⟨h4, h5⟩, if_neg (by simp [h4, h5]), if_pos ⟨h5, h4⟩] <;> decide
  · by_cases h5 : w.prerelease = none
    · rw [if_neg (by simp [h4, h5]), if_pos ⟨h4, h5⟩, if_pos ⟨h5, h4⟩] <;> decide
    · rw [if_neg (by simp [h4, h5]), if_neg (by simp [h4, h5]),
        if_neg (by simp [h4, h5]), if_neg (by simp [h4, h5])]
      exact prereleaseCompare_neg _ _

/-- C10: for all values a and b of the Version type, the comparison is
antisymmetric and reflexive: Compare(a, b) == -Compare(b, a) and
Compare(a, a) == 0. -/
theorem c10_compare_antisymm_refl :
    (∀ a b : Version, Version.Compare a b = -Version.Compare b a) ∧
      ∀ a : Version, Version.Compare a a = 0 :=
  ⟨compare_neg, compare_self⟩

/-- C3 counterexample: a Version with nil pre-release and one with an empty
non-nil pre-release are Equal, yet Compare returns 1, so "Equal(a, b) iff
Compare(a, b) == 0 and element-wise pre-release equality" fails on these
directly constructed values, as does "Equal(a, b) implies
Compare(a, b) == 0". -/
theorem c3_counterexample :
    Version.Equal noPreVersion emptyPreVersion = true ∧
      Version.Compare noPreVersion emptyPreVersion = 1 ∧
      ¬(Version.Equal noPreVersion emptyPreVersion = true ↔
        Version.Compare noPreVersion emptyPreVersion = 0 ∧
          prereleaseEqual (optList noPreVersion.prerelease)
            (optList emptyPreVersion.prerelease) = true) := by
  decide

/-- C3 amended: restricted to Versions whose pre-release field is not a
non-nil empty sequence — which holds for every parser-produced Version —
Equal(a, b) is true exactly when Compare(a, b) == 0 and the pre-release
sequences are element-wise equal by kind and value; build metadata plays no
part.  In particular Equal then implies Compare == 0. -/
theorem c3_equal_iff_compare_zero (a b : Version) (ha : a.prerelease ≠ some [])
    (hb : b.prerelease ≠ some []) :
    a.Equal b = true ↔
      Version.Compare a b = 0 ∧
        prereleaseEqual (optList a.prerelease) (optList b.prerelease) = true := by
  have key : optList a.prerelease = optList b.prerelease →
      (a.prerelease = none ↔ b.prerelease = none) := by
    intro h
    constructor
    · intro hv
      rcases (optList_eq_nil_iff b.prerelease).mp (by rw [← h, hv]; rfl) with h2 | h2
      · exact h2
      · exact absurd h2 hb
    · intro hw
      rcases (optList_eq_nil_iff a.prerelease).mp (by rw [h, hw]; rfl) with h2 | h2
      · exact h2
      · exact absurd h2 ha
  simp only [Version.Equal, Bool.and_eq_true, beq_iff_eq, prereleaseEqual_iff,
    compare_eq_zero_iff]
  constructor
  · rintro ⟨⟨⟨hma, hmi⟩, hpa⟩, hopt⟩
    exact ⟨⟨hma, hmi, hpa, key hopt, hopt⟩, hopt⟩
  · rintro ⟨⟨hma, hmi, hpa, _, hopt⟩, _⟩
    exact ⟨⟨⟨hma, hmi⟩, hpa⟩, hopt⟩

/-- Witness for the amended C3 at two concrete well-formed Versions. -/
theorem c3_equal_iff_compare_zero_witness :
    ((⟨1, 2, 3, some [.numeric 1], none⟩ : Version).prerelease ≠ some []) ∧
      ((⟨1, 2, 3, none, none⟩ : Version).prerelease ≠ some []) ∧
      (Version.Equal ⟨1, 2, 3, some [.numeric 1], none⟩ ⟨1, 2, 3, none, none⟩ = true ↔
        Version.Compare ⟨1, 2, 3, some [.numeric 1], none⟩ ⟨1, 2, 3, none, none⟩ = 0 ∧
          prereleaseEqual
            (optList (⟨1, 2, 3, some [.numeric 1], none⟩ : Version).prerelease)
            (optList (⟨1, 2, 3, none, none⟩ : Version).prerelease) = true) :=
  ⟨by decide, by decide,
    c3_equal_iff_compare_zero _ _ (by decide) (by decide)⟩

/-! Spec-side comparison agrees with the code-side one on well-formed
Versions. -/

theorem specIdentifierCompare_eq_cmp (x y : PrereleaseIdentifier) :
    specIdentifierCompare x y = x.cmp y := by
  cases x <;> cases y <;> rfl

theorem specSequenceCompare_eq (l m : List PrereleaseIdentifier) :
    specSequenceCompare l m = prereleaseCompare l m := by
  induction l generalizing m with
  | nil =>
    cases m with
    | nil => rw [prereleaseCompare_nil_nil]; rfl
    | cons y ys => rw [prereleaseCompare_nil_cons]; rfl
  | cons x xs ih =>
    cases m with
    | nil => rw [prereleaseCompare_cons_nil]; rfl
    | cons y ys =>
      rw [prereleaseCompare_cons_cons]
      simp only [specSequenceCompare, specIdentifierCompare_eq_cmp]
      by_cases hxy : x = y
      · subst hxy
        have hs : x.cmp x = 0 := (identCmp_eq_zero_iff x x).mpr rfl
        have hc : comparePrereleaseIdentifiers (some x) (some x) = 0 :=
          (cpi_eq_zero_iff _ _).mpr rfl
        rw [if_pos hs, if_pos hc, ih]
      · have hc : comparePrereleaseIdentifiers (some x) (some y) = x.cmp y := by
          simp only [comparePrereleaseIdentifiers, if_neg hxy]
        rw [hc]
        by_cases hz : x.cmp y = 0
        · exact absurd ((identCmp_eq_zero_iff x y).mp hz) hxy
        · rw [if_neg hz, if_neg hz]

theorem compare_eq_specPrecedence (v w : Version) (hv : v.prerelease ≠ some [])
    (hw : w.prerelease ≠ some []) :
    Version.Compare v w = specPrecedenceCompare v w := by
  simp only [Version.Compare, specPrecedenceCompare]
  by_cases h1 : cmpNat v.major w.major ≠ 0
  · rw [if_pos h1, if_pos h1]
  rw [if_neg h1, if_neg h1]
  by_cases h2 : cmpNat v.minor w.minor ≠ 0
  · rw [if_pos h2, if_pos h2]
  rw [if_neg h2, if_neg h2]
  by_cases h3 : cmpNat v.patch w.patch ≠ 0
  · rw [if_pos h3, if_pos h3]
  rw [if_neg h3, if_neg h3]
  rcases hv2 : v.prerelease with _ | l
  · rcases hw2 : w.prerelease with _ | m
    · simp [optList, specSequenceCompare_eq]
    · have hm : m ≠ [] := by
        intro hc
        exact hw (by rw [hw2, hc])
      simp [optList, hm]
  · have hl : l ≠ [] := by
      intro hc
      exact hv (by rw [hv2, hc])
    rcases hw2 : w.prerelease with _ | m
    · simp [optList, hl]
    · have hm : m ≠ [] := by
        intro hc
        exact hw (by rw [hw2, hc])
      simp [optList, hl, hm, specSequenceCompare_eq]

/-! Shape of parser outputs. -/

theorem splitOn_char_ne_nil (c : Char) (l : List Char) : l.splitOn c ≠ [] := by
  unfold List.splitOn
  exact List.splitOnP_ne_nil _ l

theorem parsePrereleaseIdentifier_wf (s : List Char) (id : PrereleaseIdentifier)
    (h : parsePrereleaseIdentifier s = .ok id) : WfIdent id := by
  simp only [parsePrereleaseIdentifier] at h
  split at h
  · exact absurd h (by simp)
  split at h
  · injection h with h2
    subst h2
    show (0 : Nat) < 2 ^ 64
    decide
  split at h
  · split at h
    · exact absurd h (by simp)
    · split at h
      · exact absurd h (by simp)
      · rename_i u hu
        injection h with h2
        subst h2
        show u < 2 ^ 64
        simp only [parseUint64] at hu
        split at hu
        · injection hu with h3
          omega
        · exact absurd hu (by simp)
  split at h
  · rename_i hnotnil _ hnum halpha
    injection h with h2
    subst h2
    exact ⟨hnotnil, halpha, by simpa using hnum⟩
  · exact absurd h (by simp)

theorem parsePrereleaseList_ok (l : List (List Char)) (ids : List PrereleaseIdentifier)
    (h : parsePrereleaseList l = .ok ids) :
    ids.length = l.length ∧ ∀ id ∈ ids, WfIdent id := by
  induction l generalizing ids with
  | nil =>
    simp only [parsePrereleaseList] at h
    injection h with h2
    subst h2
    simp
  | cons p rest ih =>
    simp only [parsePrereleaseList] at h
    split at h
    · exact absurd h (by simp)
    · rename_i id hp
      split at h
      · exact absurd h (by simp)
      · rename_i ids2 hr
        injection h with h2
        subst h2
        obtain ⟨hlen, hmem⟩ := ih ids2 hr
        refine ⟨by simp [hlen], ?_⟩
        intro x hx
        rcases List.mem_cons.mp hx with h3 | h3
        · subst h3
          exact parsePrereleaseIdentifier_wf p x hp
        · exact hmem x h3

theorem checkBuildParts_ok (l : List (List Char)) (h : checkBuildParts l = .ok ()) :
    ∀ p ∈ l, p ≠ [] ∧ isAlphanumericIdentifier p = true := by
  induction l with
  | nil => simp
  | cons v rest ih =>
    simp only [checkBuildParts] at h
    split at h
    · exact absurd h (by simp)
    · split at h
      · exact absurd h (by simp)
      · rename_i hne halpha
        intro p hp
        rcases List.mem_cons.mp hp with h3 | h3
        · subst h3
          exact ⟨hne, by simpa using halpha⟩
        · exact ih h p h3

theorem parseBuild_ok (s : List Char) (bs : List (List Char))
    (h : parseBuild s = .ok bs) :
    bs ≠ [] ∧ ∀ p ∈ bs, p ≠ [] ∧ isAlphanumericIdentifier p = true := by
  simp only [parseBuild] at h
  split at h
  · exact absurd h (by simp)
  · split at h
    · exact absurd h (by simp)
    · rename_i u hu
      injection h with h2
      subst h2
      exact ⟨splitOn_char_ne_nil _ _, checkBuildParts_ok _ (by cases u; exact hu)⟩

theorem parsePrereleaseList_splitOn_ne_nil (s : List Char)
    (ids : List PrereleaseIdentifier)
    (h : parsePrereleaseList (s.splitOn '.') = .ok ids) : ids ≠ [] := by
  intro hc
  subst hc
  obtain ⟨hlen, _⟩ := parsePrereleaseList_ok _ _ h
  cases hsp : s.splitOn '.' with
  | nil => exact splitOn_char_ne_nil '.' s hsp
  | cons a b =>
    rw [hsp] at hlen
    simp at hlen

theorem parseAfterCore_shape (tail : List Char)
    (pre : Option (List PrereleaseIdentifier)) (bld : Option (List (List Char)))
    (h : parseAfterCore tail = .ok (pre, bld)) :
    (∀ l, pre = some l → l ≠ [] ∧ ∀ id ∈ l, WfIdent id) ∧
      ∀ bl, bld = some bl →
        bl ≠ [] ∧ ∀ p ∈ bl, p ≠ [] ∧ isAlphanumericIdentifier p = true := by
  have hbldcase : ∀ (pre2 : Option (List PrereleaseIdentifier)) (t2 : List Char),
      (if t2.head? = some '+' then
          match parseBuild t2.tail with
          | Except.error e => Except.error e
          | Except.ok b => Except.ok (pre2, some b)
        else Except.ok (pre2, none)) = Except.ok (pre, bld) →
      pre = pre2 ∧ (bld = none ∨ ∃ bs, bld = some bs ∧ ∃ s, parseBuild s = .ok bs) := by
    intro pre2 t2 h2
    split at h2
    · split at h2
      · exact absurd h2 (by simp)
      · rename_i bs hb
        injection h2 with h3
        injection h3 with h4 h5
        exact ⟨h4.symm, Or.inr ⟨bs, h5.symm, _, hb⟩⟩
    · injection h2 with h3
      injection h3 with h4 h5
      exact ⟨h4.symm, Or.inl h5.symm⟩
  have hbld_of : (bld = none ∨ ∃ bs, bld = some bs ∧ ∃ s, parseBuild s = .ok bs) →
      ∀ bl, bld = some bl →
        bl ≠ [] ∧ ∀ p ∈ bl, p ≠ [] ∧ isAlphanumericIdentifier p = true := by
    rintro (hz | ⟨bs, hbs, s, hps⟩) bl hbl
    · rw [hz] at hbl
      exact absurd hbl (by simp)
    · rw [hbs] at hbl
      injection hbl with h4
      subst h4
      exact parseBuild_ok _ _ hps
  simp only [parseAfterCore] at h
  split at h
  case h_1 => exact absurd h (by simp)
  case h_2 pre2 hpre =>
    split at hpre
    case isTrue hh =>
      rw [if_pos hh] at h
      split at hpre
      case h_1 => exact absurd hpre (by simp)
      case h_2 ids hl =>
        injection hpre with hpre2
        subst hpre2
        obtain ⟨hp, hbshape⟩ := hbldcase _ _ h
        subst hp
        refine ⟨?_, hbld_of hbshape⟩
        intro l hl2
        injection hl2 with h5
        subst h5
        exact ⟨parsePrereleaseList_splitOn_ne_nil _ _ hl,
          (parsePrereleaseList_ok _ _ hl).2⟩
    case isFalse hh =>
      rw [if_neg hh] at h
      injection hpre with hpre2
      subst hpre2
      obtain ⟨hp, hbshape⟩ := hbldcase _ _ h
      subst hp
      refine ⟨?_, hbld_of hbshape⟩
      intro l hl2
      exact absurd hl2 (by simp)

theorem parseNums_lt (l : List (List Char)) (j : Nat) (acc out : Nat × Nat × Nat)
    (h : parseNums l j acc = .ok out)
    (ha : acc.1 < 2 ^ 64 ∧ acc.2.1 < 2 ^ 64 ∧ acc.2.2 < 2 ^ 64) :
    out.1 < 2 ^ 64 ∧ out.2.1 < 2 ^ 64 ∧ out.2.2 < 2 ^ 64 := by
  induction l generalizing j acc with
  | nil =>
    simp only [parseNums] at h
    injection h with h2
    subst h2
    exact ha
  | cons n rest ih =>
    simp only [parseNums] at h
    split at h
    · exact absurd h (by simp)
    split at h
    · exact absurd h (by simp)
    split at h
    · exact ih _ _ h ha
    split at h
    · exact absurd h (by simp)
    split at h
    · exact absurd h (by simp)
    rename_i u hu
    split at h
    · exact absurd h (by simp)
    rename_i acc2 hacc2
    refine ih _ _ h ?_
    have hu2 : u < 2 ^ 64 := by
      simp only [parseUint64] at hu
      split at hu
      · injection hu with h3
        omega
      · exact absurd hu (by simp)
    obtain ⟨ha1, ha2, ha3⟩ := ha
    obtain ⟨a1, a2, a3⟩ := acc
    simp only [assignNum] at hacc2
    match j, hacc2 with
    | 0, hacc2 =>
      injection hacc2 with h4
      subst h4
      exact ⟨hu2, ha2, ha3⟩
    | 1, hacc2 =>
      injection hacc2 with h4
      subst h4
      exact ⟨ha1, hu2, ha3⟩
    | 2, hacc2 =>
      injection hacc2 with h4
      subst h4
      exact ⟨ha1, ha2, hu2⟩
    | (k + 3), hacc2 => exact absurd hacc2 (by simp)

theorem parse_wf (str : List Char) (mc : Nat) (v : Version)
    (h : parse str mc = .ok v) : WfVersion v := by
  simp only [parse] at h
  split at h
  · exact absurd h (by simp)
  split at h
  · exact absurd h (by simp)
  split at h
  · exact absurd h (by simp)
  rename_i rest hstrip
  split at h
  · exact absurd h (by simp)
  split at h
  · exact absurd h (by simp)
  split at h
  · exact absurd h (by simp)
  rename_i acc hnums
  split at h
  · exact absurd h (by simp)
  split at h
  · exact absurd h (by simp)
  rename_i pb hpb
  injection h with h2
  subst h2
  have hlt := parseNums_lt _ _ _ _ hnums (by decide)
  have hshape := parseAfterCore_shape _ _ _ (by rw [hpb])
  exact ⟨hlt.1, hlt.2.1, hlt.2.2, hshape.1, hshape.2⟩

theorem parse_prerelease_ne_empty (str : List Char) (mc : Nat) (v : Version)
    (h : parse str mc = .ok v) : v.prerelease ≠ some [] := by
  intro hc
  exact ((parse_wf str mc v h).2.2.2.1 [] hc).1 rfl

/-- C6: for all Versions produced by the parser (either mode), Compare
follows the semver precedence algorithm as worded in the specification:
major, then minor, then patch as unsigned integers; an empty pre-release
outranks a non-empty one; element-wise identifier comparison with numeric
before alphanumeric and shorter-sequence-is-less; and the Build field never
influences the result. -/
theorem c6_compare_follows_spec (s t : List Char) (mcs mct : Nat) (v w : Version)
    (hv : parse s mcs = .ok v) (hw : parse t mct = .ok w) :
    Version.Compare v w = specPrecedenceCompare v w ∧
      ∀ b1 b2, Version.Compare { v with build := b1 } { w with build := b2 } =
        Version.Compare v w :=
  ⟨compare_eq_specPrecedence v w (parse_prerelease_ne_empty _ _ _ hv)
      (parse_prerelease_ne_empty _ _ _ hw),
    fun _ _ => rfl⟩

/-- Witness for C6 at the parses of "1.0.0-alpha" and "1.0.0". -/
theorem c6_compare_follows_spec_witness :
    Version.Compare ⟨1, 0, 0, some [.alphanumeric ['a', 'l', 'p', 'h', 'a']], none⟩
        ⟨1, 0, 0, none, none⟩ =
      specPrecedenceCompare
        ⟨1, 0, 0, some [.alphanumeric ['a', 'l', 'p', 'h', 'a']], none⟩
        ⟨1, 0, 0, none, none⟩ :=
  (c6_compare_follows_spec alphaInput.data releaseInput.data 3 3 _ _ rfl rfl).1

/-- C7: the overflow boundary: the largest uint64 is accepted as a major
component with exactly that value, and one more is rejected. -/
theorem c7_overflow_boundary :
    Parse maxInput = .ok ⟨18446744073709551615, 0, 0, none, none⟩ ∧
      Parse overflowInput = .error .rangeError :=
  ⟨rfl, rfl⟩

/-- C9: the five rejection fixtures — leading zero in a core component, a
numeric pre-release identifier with a leading zero, an empty pre-release,
a disallowed prefix character, and a disallowed identifier character — all
fail to parse. -/
theorem c9_rejections :
    Parse leadZeroInput = .error .invalidVersion ∧
      Parse preZeroInput = .error .invalidVersion ∧
      Parse emptyPreInput = .error .invalidVersion ∧
      Parse plusPrefixInput = .error .invalidVersion ∧
      Parse underscoreInput = .error .invalidVersion :=
  ⟨rfl, rfl, rfl, rfl, rfl⟩

/-- C1 divergence: `IsValid` accepts a core component one past the uint64
maximum (its digit scan never checks magnitude) while `Parse` rejects the
same string, so the validator does not return true iff the parser succeeds. -/
theorem c1_validator_parser_disagree :
    IsValid overflowInput = some true ∧ Parse overflowInput = .error .rangeError :=
  ⟨rfl, rfl⟩

/-- C2 divergence: on a pre-release segment ending in a dot the validator's
scan runs `b = ver[pos]` with pos = len(ver) and panics at runtime
(modelled by `none`), while the parser returns an ordinary error for the
same string. -/
theorem c2_validator_panics :
    IsValid dotEndInput = none ∧ Parse dotEndInput = .error .invalidVersion :=
  ⟨rfl, rfl⟩

/-- C4 counterexample: a failed parse whose error is not the invalid-version
kind: core-component overflow surfaces the strconv range error unchanged. -/
theorem c4_counterexample :
    Parse overflowInput = .error .rangeError ∧ Err.rangeError ≠ Err.invalidVersion :=
  ⟨rfl, by decide⟩

/-! Error kinds reachable from parse. -/

theorem parseUint64_error (l : List Char) (e : Err)
    (h : parseUint64 l = .error e) : e = .rangeError := by
  simp only [parseUint64] at h
  split at h
  · exact absurd h (by simp)
  · injection h with h2
    exact h2.symm

theorem stripPrefix_error (s : List Char) (e : Err)
    (h : stripPrefix s = .error e) : e = .invalidVersion := by
  cases s with
  | nil =>
    simp only [stripPrefix] at h
    injection h with h2
    exact h2.symm
  | cons c rest =>
    simp only [stripPrefix] at h
    split at h
    · injection h with h2
      exact h2.symm
    · split at h
      · split at h
        · injection h with h2
          exact h2.symm
        · exact absurd h (by simp)
      · exact absurd h (by simp)

theorem assignNum_ne_error (j u : Nat) (acc : Nat × Nat × Nat) (e : Err)
    (hj : j ≤ 2) : assignNum j u acc ≠ .error e := by
  obtain ⟨a1, a2, a3⟩ := acc
  interval_cases j <;> simp [assignNum]

theorem parseNums_error (l : List (List Char)) (j : Nat) (acc : Nat × Nat × Nat)
    (e : Err) (hlen : l.length + j ≤ 3) (h : parseNums l j acc = .error e) :
    e = .invalidVersion ∨ e = .rangeError := by
  induction l generalizing j acc with
  | nil => exact absurd h (by simp [parseNums])
  | cons n rest ih =>
    simp only [parseNums] at h
    split at h
    · injection h with h2
      exact Or.inl h2.symm
    split at h
    · injection h with h2
      exact Or.inl h2.symm
    split at h
    · exact ih _ _ (by simp at hlen ⊢; omega) h
    split at h
    · injection h with h2
      exact Or.inl h2.symm
    split at h
    · rename_i hu
      injection h with h2
      subst h2
      exact Or.inr (parseUint64_error _ _ hu)
    split at h
    · rename_i hacc
      exact absurd hacc (assignNum_ne_error _ _ _ _ (by simp at hlen; omega))
    · exact ih _ _ (by simp at hlen ⊢; omega) h

theorem parsePrereleaseIdentifier_error (s : List Char) (e : Err)
    (h : parsePrereleaseIdentifier s = .error e) :
    e = .invalidVersion ∨ e = .rangeError := by
  simp only [parsePrereleaseIdentifier] at h
  split at h
  · injection h with h2
    exact Or.inl h2.symm
  split at h
  · exact absurd h (by simp)
  split at h
  · split at h
    · injection h with h2
      exact Or.inl h2.symm
    · split at h
      · rename_i hu
        injection h with h2
        subst h2
        exact Or.inr (parseUint64_error _ _ hu)
      · exact absurd h (by simp)
  split at h
  · exact absurd h (by simp)
  · injection h with h2
    exact Or.inl h2.symm

theorem parsePrereleaseList_error (l : List (List Char)) (e : Err)
    (h : parsePrereleaseList l = .error e) :
    e = .invalidVersion ∨ e = .rangeError := by
  induction l with
  | nil => exact absurd h (by simp [parsePrereleaseList])
  | cons p rest ih =>
    simp only [parsePrereleaseList] at h
    split at h
    · rename_i hp
      injection h with h2
      subst h2
      exact parsePrereleaseIdentifier_error _ _ hp
    · split at h
      · rename_i hr
        injection h with h2
        subst h2
        exact ih hr
      · exact absurd h (by simp)

theorem checkBuildParts_error (l : List (List Char)) (e : Err)
    (h : checkBuildParts l = .error e) : e = .invalidVersion := by
  induction l with
  | nil => exact absurd h (by simp [checkBuildParts])
  | cons p rest ih =>
    simp only [checkBuildParts] at h
    split at h
    · injection h with h2
      exact h2.symm
    split at h
    · injection h with h2
      exact h2.symm
    · exact ih h

theorem parseBuild_error (s : List Char) (e : Err)
    (h : parseBuild s = .error e) : e = .invalidVersion := by
  simp only [parseBuild] at h
  split at h
  · injection h with h2
    exact h2.symm
  · split at h
    · rename_i hc
      injection h with h2
      subst h2
      exact checkBuildParts_error _ _ hc
    · exact absurd h (by simp)

theorem buildPhase_error (pre2 : Option (List PrereleaseIdentifier))
    (t2 : List Char) (e : Err)
    (h : (if t2.head? = some '+' then
            match parseBuild t2.tail with
            | Except.error e => Except.error e
            | Except.ok b => Except.ok (pre2, some b)
          else Except.ok (pre2, none)) = .error e) : e = .invalidVersion := by
  split at h
  · split at h
    · rename_i hb
      injection h with h2
      subst h2
      exact parseBuild_error _ _ hb
    · exact absurd h (by simp)
  · exact absurd h (by simp)

theorem parseAfterCore_error (tail : List Char) (e : Err)
    (h : parseAfterCore tail = .error e) :
    e = .invalidVersion ∨ e = .rangeError := by
  simp only [parseAfterCore] at h
  split at h
  case h_1 e2 hpre =>
    injection h with h2
    subst h2
    split at hpre
    · split at hpre
      · rename_i hl
        injection hpre with h3
        subst h3
        exact parsePrereleaseList_error _ _ hl
      · exact absurd hpre (by simp)
    · exact absurd hpre (by simp)
  case h_2 pre2 hpre =>
    exact Or.inl (buildPhase_error _ _ _ h)

/-- C4 amended: every Parse/ParseLax failure carries the single
invalid-version error kind, except numeric overflow of a 64-bit value (a
core component or a numeric pre-release identifier), where the wrapped
error is the strconv range error; the internal parser-error kind is never
returned, and a failed parse yields no Version value (the error carries
none). -/
theorem c4_error_kinds (str : List Char) (mc : Nat) (e : Err)
    (h : parse str mc = .error e) : e = .invalidVersion ∨ e = .rangeError := by
  simp only [parse] at h
  split at h
  · injection h with h2
    exact Or.inl h2.symm
  split at h
  · injection h with h2
    exact Or.inl h2.symm
  split at h
  case h_1 e2 hs =>
    injection h with h2
    subst h2
    exact Or.inl (stripPrefix_error _ _ hs)
  rename_i rest hstrip
  split at h
  · injection h with h2
    exact Or.inl h2.symm
  split at h
  · injection h with h2
    exact Or.inl h2.symm
  split at h
  case h_1 e2 hn =>
    injection h with h2
    subst h2
    rename_i hgt _
    exact parseNums_error _ _ _ _ (by omega) hn
  rename_i acc hnums
  split at h
  · injection h with h2
    exact Or.inl h2.symm
  split at h
  case h_1 e2 hac =>
    injection h with h2
    subst h2
    exact parseAfterCore_error _ _ hac
  · exact absurd h (by simp)

/-- Witness for the amended C4 at the empty string, whose parse fails with
the invalid-version kind. -/
theorem c4_error_kinds_witness :
    Err.invalidVersion = .invalidVersion ∨ Err.invalidVersion = .rangeError :=
  c4_error_kinds [] 3 .invalidVersion rfl

/-! Inversion and construction for successful parses. -/

theorem parse_ok_inversion (str : List Char) (mc : Nat) (v : Version)
    (h : parse str mc = .ok v) :
    str ≠ [] ∧ isASCII str = true ∧
      ∃ rest acc pb,
        stripPrefix str = .ok rest ∧
        ((rest.takeWhile isCoreChar).splitOn '.').length ≤ 3 ∧
        mc ≤ ((rest.takeWhile isCoreChar).splitOn '.').length ∧
        parseNums ((rest.takeWhile isCoreChar).splitOn '.') 0 (0, 0, 0) = .ok acc ∧
        ¬(rest.dropWhile isCoreChar ≠ [] ∧
            (rest.dropWhile isCoreChar).head? ≠ some '-' ∧
            (rest.dropWhile isCoreChar).head? ≠ some '+') ∧
        parseAfterCore (rest.dropWhile isCoreChar) = .ok pb ∧
        v = ⟨acc.1, acc.2.1, acc.2.2, pb.1, pb.2⟩ := by
  simp only [parse] at h
  split at h
  · exact absurd h (by simp)
  rename_i hne
  split at h
  · exact absurd h (by simp)
  rename_i hascii
  split at h
  · exact absurd h (by simp)
  rename_i rest hstrip
  split at h
  · exact absurd h (by simp)
  rename_i hgt
  split at h
  · exact absurd h (by simp)
  rename_i hlt
  split at h
  · exact absurd h (by simp)
  rename_i acc hnums
  split at h
  · exact absurd h (by simp)
  rename_i hguard
  split at h
  · exact absurd h (by simp)
  rename_i pb hpb
  injection h with h2
  exact ⟨hne, by simpa using hascii,
    rest, acc, pb, hstrip, by omega, by omega, hnums, hguard, hpb, h2.symm⟩

theorem parse_ok_construction (str : List Char) (mc : Nat) (rest : List Char)
    (acc : Nat × Nat × Nat)
    (pb : Option (List PrereleaseIdentifier) × Option (List (List Char)))
    (hne : str ≠ []) (hascii : isASCII str = true)
    (hstrip : stripPrefix str = .ok rest)
    (hle : ((rest.takeWhile isCoreChar).splitOn '.').length ≤ 3)
    (hge : mc ≤ ((rest.takeWhile isCoreChar).splitOn '.').length)
    (hnums : parseNums ((rest.takeWhile isCoreChar).splitOn '.') 0 (0, 0, 0) = .ok acc)
    (hguard : ¬(rest.dropWhile isCoreChar ≠ [] ∧
        (rest.dropWhile isCoreChar).head? ≠ some '-' ∧
        (rest.dropWhile isCoreChar).head? ≠ some '+'))
    (hpb : parseAfterCore (rest.dropWhile isCoreChar) = .ok pb) :
    parse str mc = .ok ⟨acc.1, acc.2.1, acc.2.2, pb.1, pb.2⟩ := by
  simp only [parse]
  rw [if_neg hne, if_neg (by simp [hascii])]
  simp only [hstrip]
  rw [if_neg (by omega), if_neg (by omega)]
  simp only [hnums]
  rw [if_neg hguard]
  simp only [hpb]

/-! Lax parsing. -/

theorem parse_min3_to_min0 (str : List Char) (v : Version)
    (h : parse str 3 = .ok v) : parse str 0 = .ok v := by
  obtain ⟨hne, hascii, rest, acc, pb, hstrip, hle, hge, hnums, hguard, hpb, hv⟩ :=
    parse_ok_inversion str 3 v h
  rw [hv]
  exact parse_ok_construction str 0 rest acc pb hne hascii hstrip hle
    (Nat.zero_le _) hnums hguard hpb

theorem assignNum_keeps (j u : Nat) (acc acc2 : Nat × Nat × Nat)
    (h : assignNum j u acc = .ok acc2) :
    (j = 0 → acc2.2.1 = acc.2.1) ∧ (j ≤ 1 → acc2.2.2 = acc.2.2) := by
  obtain ⟨a1, a2, a3⟩ := acc
  match j, h with
  | 0, h =>
    injection h with h2
    subst h2
    exact ⟨fun _ => rfl, fun _ => rfl⟩
  | 1, h =>
    injection h with h2
    subst h2
    exact ⟨fun hc => by omega, fun _ => rfl⟩
  | 2, h =>
    injection h with h2
    subst h2
    exact ⟨fun hc => by omega, fun hc => by omega⟩
  | (k + 3), h => exact absurd h (by simp [assignNum])

theorem parseNums_defaults (l : List (List Char)) (j : Nat)
    (acc out : Nat × Nat × Nat) (h : parseNums l j acc = .ok out) :
    (j + l.length ≤ 1 → out.2.1 = acc.2.1) ∧
      (j + l.length ≤ 2 → out.2.2 = acc.2.2) := by
  induction l generalizing j acc with
  | nil =>
    simp only [parseNums] at h
    injection h with h2
    subst h2
    exact ⟨fun _ => rfl, fun _ => rfl⟩
  | cons n rest ih =>
    simp only [parseNums] at h
    split at h
    · exact absurd h (by simp)
    split at h
    · exact absurd h (by simp)
    split at h
    · obtain ⟨ih1, ih2⟩ := ih _ _ h
      simp only [List.length_cons]
      exact ⟨fun hc => ih1 (by omega), fun hc => ih2 (by omega)⟩
    split at h
    · exact absurd h (by simp)
    split at h
    · exact absurd h (by simp)
    rename_i u hu
    split at h
    · exact absurd h (by simp)
    rename_i acc2 hacc2
    obtain ⟨ih1, ih2⟩ := ih _ _ h
    obtain ⟨k1, k2⟩ := assignNum_keeps _ _ _ _ hacc2
    simp only [List.length_cons]
    constructor
    · intro hc
      rw [ih1 (by omega), k1 (by omega)]
    · intro hc
      rw [ih2 (by omega), k2 (by omega)]

/-- C8: ParseLax accepts 1 or 2 core components, defaulting the absent
trailing components to zero (when the scanned core has at most one
component the minor and patch are 0; with at most two the patch is 0), the
tail handling is otherwise identical to the strict parser (every
strict-accepted string lax-parses to the same Version), and in particular
ParseLax "v1" yields 1.0.0 and ParseLax "1.2-beta" yields 1.2.0-beta. -/
theorem c8_lax_parse :
    ParseLax laxOneInput = .ok ⟨1, 0, 0, none, none⟩ ∧
      ParseLax laxTwoInput =
        .ok ⟨1, 2, 0, some [.alphanumeric ['b', 'e', 't', 'a']], none⟩ ∧
      (∀ (s : String) (v : Version), Parse s = .ok v → ParseLax s = .ok v) ∧
      ∀ (s : String) (v : Version), ParseLax s = .ok v →
        (coreCount s.data ≤ 1 → v.minor = 0 ∧ v.patch = 0) ∧
          (coreCount s.data ≤ 2 → v.patch = 0) := by
  refine ⟨rfl, rfl, fun s v h => parse_min3_to_min0 s.data v h, ?_⟩
  intro s v h
  obtain ⟨hne, hascii, rest, acc, pb, hstrip, hle, hge, hnums, hguard, hpb, hv⟩ :=
    parse_ok_inversion s.data 0 v h
  have hcc : coreCount s.data = ((rest.takeWhile isCoreChar).splitOn '.').length := by
    simp only [coreCount, hstrip]
  obtain ⟨d1, d2⟩ := parseNums_defaults _ _ _ _ hnums
  subst hv
  rw [hcc]
  exact ⟨fun hc => ⟨d1 (by omega), d2 (by omega)⟩, fun hc => d2 (by omega)⟩

/-- Witness for C8's universally quantified parts at "1.0.0": strict parse
carries over to lax parse with the same Version. -/
theorem c8_lax_parse_witness :
    ParseLax releaseInput = .ok ⟨1, 0, 0, none, none⟩ :=
  c8_lax_parse.2.2.1 releaseInput ⟨1, 0, 0, none, none⟩ rfl

/-! Decimal rendering facts. -/

theorem digitChar_toNat (d : Nat) (h : d < 10) : (digitChar d).toNat = 48 + d := by
  interval_cases d <;> rfl

theorem digitChar_isDigit (d : Nat) (h : d < 10) : isDigit (digitChar d) = true := by
  interval_cases d <;> rfl

theorem natDigits_ne_nil (n : Nat) : natDigits n ≠ [] := by
  rw [natDigits]
  split <;> simp

theorem natDigits_all_digit (n : Nat) : ∀ c ∈ natDigits n, isDigit c = true := by
  induction n using Nat.strong_induction_on with
  | _ n ih =>
    rw [natDigits]
    split
    · rename_i h
      intro c hc
      simp only [List.mem_singleton] at hc
      subst hc
      exact digitChar_isDigit n h
    · rename_i h
      intro c hc
      rw [List.mem_append] at hc
      rcases hc with hc | hc
      · exact ih (n / 10) (Nat.div_lt_self (by omega) (by omega)) c hc
      · simp only [List.mem_singleton] at hc
        subst hc
        exact digitChar_isDigit (n % 10) (Nat.mod_lt _ (by omega))

theorem digitsToNat_append_singleton (a : List Char) (c : Char) :
    digitsToNat (a ++ [c]) = digitsToNat a * 10 + (c.toNat - 48) := by
  simp [digitsToNat, List.foldl_append]

theorem digitsToNat_natDigits (n : Nat) : digitsToNat (natDigits n) = n := by
  induction n using Nat.strong_induction_on with
  | _ n ih =>
    rw [natDigits]
    split
    · rename_i h
      simp [digitsToNat, digitChar_toNat n h]
    · rename_i h
      rw [digitsToNat_append_singleton,
        ih (n / 10) (Nat.div_lt_self (by omega) (by omega)),
        digitChar_toNat (n % 10) (Nat.mod_lt _ (by omega))]
      omega

theorem natDigits_lt10 (n : Nat) (h : n < 10) : natDigits n = [digitChar n] := by
  rw [natDigits, if_pos h]

theorem natDigits_zero : natDigits 0 = ['0'] := natDigits_lt10 0 (by omega)

theorem natDigits_ne_single_zero (n : Nat) (hn : n ≠ 0) : natDigits n ≠ ['0'] := by
  intro hc
  have h2 := digitsToNat_natDigits n
  rw [hc] at h2
  simp [digitsToNat] at h2
  exact hn h2.symm

theorem natDigits_head_ne_zero (n : Nat) (hn : n ≠ 0) :
    (natDigits n).head? ≠ some '0' := by
  induction n using Nat.strong_induction_on with
  | _ n ih =>
    rw [natDigits]
    split
    · rename_i h
      simp only [List.head?_cons]
      intro hc
      injection hc with hc2
      have h2 : (digitChar n).toNat = 48 := by rw [hc2]; rfl
      rw [digitChar_toNat n h] at h2
      omega
    · rename_i h
      have h10 : n / 10 ≠ 0 := by omega
      have hrec := ih (n / 10) (Nat.div_lt_self (by omega) (by omega)) h10
      cases hnd : natDigits (n / 10) with
      | nil => exact absurd hnd (natDigits_ne_nil _)
      | cons c rest =>
        rw [hnd] at hrec
        simp only [List.cons_append, List.head?_cons] at hrec ⊢
        exact hrec

/-! Character-class facts. -/

theorem isDigit_toNat {c : Char} (h : isDigit c = true) :
    48 ≤ c.toNat ∧ c.toNat ≤ 57 := by
  simp [isDigit] at h
  exact h

theorem isDigit_isCoreChar {c : Char} (h : isDigit c = true) : isCoreChar c = true := by
  simp [isCoreChar, h]

theorem isDigit_isIdent {c : Char} (h : isDigit c = true) :
    isIdentifierCharacter c = true := by
  obtain ⟨h1, h2⟩ := isDigit_toNat h
  simp [isIdentifierCharacter]
  omega

theorem isDigit_ne {c : Char} (h : isDigit c = true) :
    c ≠ '.' ∧ c ≠ '+' ∧ c ≠ '-' ∧ c ≠ 'v' := by
  obtain ⟨h1, h2⟩ := isDigit_toNat h
  refine ⟨?_, ?_, ?_, ?_⟩ <;> intro hc <;> subst hc <;> simp_all

theorem isIdent_toNat {c : Char} (h : isIdentifierCharacter c = true) :
    45 ≤ c.toNat ∧ c.toNat ≤ 122 := by
  simp [isIdentifierCharacter] at h
  rcases h with ((h | h) | h) | h
  · omega
  · omega
  · omega
  · subst h
    simp

theorem isIdent_ne_sep {c : Char} (h : isIdentifierCharacter c = true) :
    c ≠ '.' ∧ c ≠ '+' := by
  constructor <;> intro hc <;> subst hc <;> simp [isIdentifierCharacter] at h

theorem isIdent_ascii {c : Char} (h : isIdentifierCharacter c = true) :
    c.toNat ≤ 127 :=
  (isIdent_toNat h).2.trans (by omega)

/-! Rendered identifiers parse back to themselves. -/

theorem renderIdentifier_ne_nil (id : PrereleaseIdentifier) (h : WfIdent id) :
    renderIdentifier id ≠ [] := by
  cases id with
  | alphanumeric a => exact h.1
  | numeric n => exact natDigits_ne_nil n

theorem renderIdentifier_chars (id : PrereleaseIdentifier) (h : WfIdent id) :
    ∀ c ∈ renderIdentifier id, isIdentifierCharacter c = true := by
  cases id with
  | alphanumeric a =>
    intro c hc
    have h2 : isAlphanumericIdentifier a = true := h.2.1
    simp only [isAlphanumericIdentifier, List.all_eq_true] at h2
    exact h2 c hc
  | numeric n =>
    intro c hc
    exact isDigit_isIdent (natDigits_all_digit n c hc)

theorem parsePrereleaseIdentifier_render (id : PrereleaseIdentifier)
    (h : WfIdent id) : parsePrereleaseIdentifier (renderIdentifier id) = .ok id := by
  cases id with
  | numeric n =>
    simp only [renderIdentifier]
    by_cases hn : n = 0
    · subst hn
      rw [natDigits_zero]
      rfl
    · have hlt : n < 2 ^ 64 := h
      simp only [parsePrereleaseIdentifier]
      rw [if_neg (natDigits_ne_nil n), if_neg (natDigits_ne_single_zero n hn)]
      have hnum : isNumericIdentifier (natDigits n) = true := by
        simp only [isNumericIdentifier, List.all_eq_true]
        exact natDigits_all_digit n
      rw [if_pos hnum, if_neg (natDigits_head_ne_zero n hn)]
      simp only [parseUint64, digitsToNat_natDigits]
      rw [if_pos hlt]
  | alphanumeric a =>
    obtain ⟨hne, halpha, hnum⟩ := h
    simp only [renderIdentifier, parsePrereleaseIdentifier]
    rw [if_neg hne, if_neg ?hz, if_neg (by simp [hnum]), if_pos halpha]
    case hz =>
      intro hc
      rw [hc] at hnum
      simp [isNumericIdentifier, isDigit] at hnum

theorem parsePrereleaseList_map_render (l : List PrereleaseIdentifier)
    (h : ∀ id ∈ l, WfIdent id) :
    parsePrereleaseList (l.map renderIdentifier) = .ok l := by
  induction l with
  | nil => rfl
  | cons id rest ih =>
    rw [List.map_cons]
    simp only [parsePrereleaseList]
    rw [parsePrereleaseIdentifier_render id (h id (by simp)),
      ih fun i hi => h i (by simp [hi])]

theorem checkBuildParts_of_wf (bl : List (List Char))
    (h : ∀ p ∈ bl, p ≠ [] ∧ isAlphanumericIdentifier p = true) :
    checkBuildParts bl = .ok () := by
  induction bl with
  | nil => rfl
  | cons v rest ih =>
    simp only [checkBuildParts]
    rw [if_neg (h v (by simp)).1, if_neg (by simp [(h v (by simp)).2])]
    exact ih fun p hp => h p (by simp [hp])

/-! Join/split facts for the rendered string. -/

theorem intercalate_cons_cons (sep a b : List Char) (rest : List (List Char)) :
    List.intercalate sep (a :: b :: rest) = a ++ sep ++ List.intercalate sep (b :: rest) := by
  simp [List.intercalate]

theorem intercalate_single (a : List Char) : List.intercalate ['.'] [a] = a := by
  simp [List.intercalate]

theorem mem_intercalate_dot (parts : List (List Char)) (c : Char)
    (h : c ∈ List.intercalate ['.'] parts) : c = '.' ∨ ∃ p ∈ parts, c ∈ p := by
  induction parts with
  | nil => simp [List.intercalate] at h
  | cons p rest ih =>
    cases rest with
    | nil =>
      rw [intercalate_single] at h
      exact Or.inr ⟨p, by simp, h⟩
    | cons q rest2 =>
      rw [intercalate_cons_cons] at h
      rw [List.mem_append, List.mem_append] at h
      rcases h with (h | h) | h
      · exact Or.inr ⟨p, by simp, h⟩
      · simp at h
        exact Or.inl h
      · rcases ih h with h2 | ⟨p2, hp2, hc2⟩
        · exact Or.inl h2
        · exact Or.inr ⟨p2, List.mem_cons_of_mem p hp2, hc2⟩

theorem intercalate_ne_nil (parts : List (List Char)) (hne : parts ≠ [])
    (h : ∀ p ∈ parts, p ≠ []) : List.intercalate ['.'] parts ≠ [] := by
  cases parts with
  | nil => exact absurd rfl hne
  | cons p rest =>
    cases rest with
    | nil =>
      rw [intercalate_single]
      exact h p (by simp)
    | cons q rest2 =>
      rw [intercalate_cons_cons]
      have := h p (by simp)
      cases hp : p with
      | nil => exact absurd hp this
      | cons c cs => simp

/-! parseNums on rendered core components. -/

theorem parseNums_cons_zero (rest : List (List Char)) (j : Nat)
    (acc : Nat × Nat × Nat) :
    parseNums (natDigits 0 :: rest) j acc = parseNums rest (j + 1) acc := by
  rw [natDigits_zero]
  simp only [parseNums]
  rw [if_neg (by simp), if_neg (by simp [isNumericIdentifier, isDigit])]
  simp

theorem parseNums_cons_pos (x : Nat) (hx : x < 2 ^ 64) (hx0 : x ≠ 0)
    (rest : List (List Char)) (j : Nat) (acc : Nat × Nat × Nat) :
    parseNums (natDigits x :: rest) j acc =
      match assignNum j x acc with
      | .error e => .error e
      | .ok acc2 => parseNums rest (j + 1) acc2 := by
  simp only [parseNums]
  rw [if_neg (natDigits_ne_nil x)]
  have hnum : isNumericIdentifier (natDigits x) = true := by
    simp only [isNumericIdentifier, List.all_eq_true]
    exact natDigits_all_digit x
  rw [if_neg (by simp [hnum]), if_neg (natDigits_ne_single_zero x hx0),
    if_neg (natDigits_head_ne_zero x hx0)]
  simp only [parseUint64, digitsToNat_natDigits]
  rw [if_pos hx]

theorem parseNums_step0 (x : Nat) (hx : x < 2 ^ 64) (rest : List (List Char))
    (b c : Nat) :
    parseNums (natDigits x :: rest) 0 (0, b, c) = parseNums rest 1 (x, b, c) := by
  by_cases hx0 : x = 0
  · subst hx0
    exact parseNums_cons_zero rest 0 (0, b, c)
  · rw [parseNums_cons_pos x hx hx0]
    rfl

theorem parseNums_step1 (x : Nat) (hx : x < 2 ^ 64) (rest : List (List Char))
    (a c : Nat) :
    parseNums (natDigits x :: rest) 1 (a, 0, c) = parseNums rest 2 (a, x, c) := by
  by_cases hx0 : x = 0
  · subst hx0
    exact parseNums_cons_zero rest 1 (a, 0, c)
  · rw [parseNums_cons_pos x hx hx0]
    rfl

theorem parseNums_step2 (x : Nat) (hx : x < 2 ^ 64) (rest : List (List Char))
    (a b : Nat) :
    parseNums (natDigits x :: rest) 2 (a, b, 0) = parseNums rest 3 (a, b, x) := by
  by_cases hx0 : x = 0
  · subst hx0
    exact parseNums_cons_zero rest 2 (a, b, 0)
  · rw [parseNums_cons_pos x hx hx0]
    rfl

theorem parseNums_three (M m p : Nat) (hM : M < 2 ^ 64) (hm : m < 2 ^ 64)
    (hp : p < 2 ^ 64) :
    parseNums [natDigits M, natDigits m, natDigits p] 0 (0, 0, 0) = .ok (M, m, p) := by
  rw [parseNums_step0 M hM, parseNums_step1 m hm, parseNums_step2 p hp]
  rfl

/-! parseAfterCore on rendered pre-release/build suffixes. -/

theorem prerender_chars (l : List PrereleaseIdentifier)
    (h : ∀ id ∈ l, WfIdent id) :
    ∀ c ∈ List.intercalate ['.'] (l.map renderIdentifier),
      c = '.' ∨ isIdentifierCharacter c = true := by
  intro c hc
  rcases mem_intercalate_dot _ _ hc with h1 | ⟨p, hp, hcp⟩
  · exact Or.inl h1
  · right
    rw [List.mem_map] at hp
    obtain ⟨id, hid, rfl⟩ := hp
    exact renderIdentifier_chars id (h id hid) c hcp

theorem prerender_ne_plus (l : List PrereleaseIdentifier)
    (h : ∀ id ∈ l, WfIdent id) :
    ∀ c ∈ List.intercalate ['.'] (l.map renderIdentifier), c ≠ '+' := by
  intro c hc
  rcases prerender_chars l h c hc with h1 | h1
  · subst h1
    decide
  · exact (isIdent_ne_sep h1).2

theorem prerender_splitOn (l : List PrereleaseIdentifier) (hl : l ≠ [])
    (h : ∀ id ∈ l, WfIdent id) :
    (List.intercalate ['.'] (l.map renderIdentifier)).splitOn '.' =
      l.map renderIdentifier := by
  refine List.splitOn_intercalate (l.map renderIdentifier) '.' ?_ (by simp [hl])
  intro p hp hc
  rw [List.mem_map] at hp
  obtain ⟨id, hid, rfl⟩ := hp
  exact absurd rfl (isIdent_ne_sep (renderIdentifier_chars id (h id hid) '.' hc)).1

theorem buildrender_parseBuild (bs : List (List Char)) (hbs : bs ≠ [])
    (h : ∀ p ∈ bs, p ≠ [] ∧ isAlphanumericIdentifier p = true) :
    parseBuild (List.intercalate ['.'] bs) = .ok bs := by
  have hsp : (List.intercalate ['.'] bs).splitOn '.' = bs := by
    refine List.splitOn_intercalate bs '.' ?_ hbs
    intro p hp hc
    have h2 : isAlphanumericIdentifier p = true := (h p hp).2
    simp only [isAlphanumericIdentifier, List.all_eq_true] at h2
    exact absurd rfl (isIdent_ne_sep (h2 '.' hc)).1
  simp only [parseBuild]
  rw [if_neg (intercalate_ne_nil bs hbs fun p hp => (h p hp).1), hsp,
    checkBuildParts_of_wf bs h]

theorem parseAfterCore_hyphen (l : List PrereleaseIdentifier) (hl : l ≠ [])
    (hwf : ∀ id ∈ l, WfIdent id) (Y : List Char) (bld : Option (List (List Char)))
    (hY : (Y = [] ∧ bld = none) ∨
      ∃ bs, bld = some bs ∧ Y = '+' :: List.intercalate ['.'] bs ∧ bs ≠ [] ∧
        ∀ p ∈ bs, p ≠ [] ∧ isAlphanumericIdentifier p = true) :
    parseAfterCore ('-' :: (List.intercalate ['.'] (l.map renderIdentifier) ++ Y)) =
      .ok (some l, bld) := by
  have hTW : (List.intercalate ['.'] (l.map renderIdentifier) ++ Y).takeWhile
      (fun c => c ≠ '+') = List.intercalate ['.'] (l.map renderIdentifier) := by
    rw [List.takeWhile_append_of_pos (by
      intro a ha
      simpa using prerender_ne_plus l hwf a ha)]
    rcases hY with ⟨hY1, _⟩ | ⟨bs, _, hY1, _, _⟩ <;> subst hY1 <;> simp
  have hDW : (List.intercalate ['.'] (l.map renderIdentifier) ++ Y).dropWhile
      (fun c => c ≠ '+') = Y := by
    rw [List.dropWhile_append_of_pos (by
      intro a ha
      simpa using prerender_ne_plus l hwf a ha)]
    rcases hY with ⟨hY1, _⟩ | ⟨bs, _, hY1, _, _⟩ <;> subst hY1 <;> simp
  rcases hY with ⟨hY1, hY2⟩ | ⟨bs, hY2, hY1, hbs, hbswf⟩
  · subst hY1
    subst hY2
    simp only [parseAfterCore, List.head?_cons, List.tail_cons, hTW, hDW]
    simp [prerender_splitOn l hl hwf, parsePrereleaseList_map_render l hwf]
  · subst hY1
    subst hY2
    simp only [parseAfterCore, List.head?_cons, List.tail_cons, hTW, hDW]
    simp [prerender_splitOn l hl hwf, parsePrereleaseList_map_render l hwf,
      buildrender_parseBuild bs hbs hbswf]

theorem parseAfterCore_plus (bs : List (List Char)) (hbs : bs ≠ [])
    (h : ∀ p ∈ bs, p ≠ [] ∧ isAlphanumericIdentifier p = true) :
    parseAfterCore ('+' :: List.intercalate ['.'] bs) = .ok (none, some bs) := by
  simp only [parseAfterCore, List.head?_cons, List.tail_cons]
  simp [buildrender_parseBuild bs hbs h]

/-! Structure of the rendered string. -/

theorem coreChars (M m p : Nat) :
    ∀ c ∈ natDigits M ++ '.' :: natDigits m ++ '.' :: natDigits p,
      isCoreChar c = true := by
  intro c hc
  simp only [List.mem_append, List.mem_cons] at hc
  have hdot : isCoreChar '.' = true := by decide
  have hdig : ∀ n, c ∈ natDigits n → isCoreChar c = true := fun n h =>
    isDigit_isCoreChar (natDigits_all_digit n c h)
  rcases hc with (h1 | h1 | h1) | h1 | h1
  · exact hdig M h1
  · rw [h1]; exact hdot
  · exact hdig m h1
  · rw [h1]; exact hdot
  · exact hdig p h1

theorem render_core_form (v : Version) :
    Version.render v =
      (natDigits v.major ++ '.' :: natDigits v.minor ++ '.' :: natDigits v.patch) ++
        ((if (optList v.prerelease).length > 0 then
            '-' :: List.intercalate ['.'] ((optList v.prerelease).map renderIdentifier)
          else []) ++
          (if (optList v.build).length > 0 then
            '+' :: List.intercalate ['.'] (optList v.build)
          else [])) := by
  simp [Version.render]

theorem coreStr_splitOn (M m p : Nat) :
    (natDigits M ++ '.' :: natDigits m ++ '.' :: natDigits p).splitOn '.' =
      [natDigits M, natDigits m, natDigits p] := by
  have he : natDigits M ++ '.' :: natDigits m ++ '.' :: natDigits p =
      List.intercalate ['.'] [natDigits M, natDigits m, natDigits p] := by
    rw [intercalate_cons_cons, intercalate_cons_cons, intercalate_single]
    simp
  rw [he]
  refine List.splitOn_intercalate _ '.' ?_ (by simp)
  intro l hl hc
  simp only [List.mem_cons, List.not_mem_nil, or_false] at hl
  rcases hl with h1 | h1 | h1 <;> subst h1 <;>
    exact absurd (natDigits_all_digit _ '.' hc) (by decide)

theorem render_ne_nil (v : Version) : Version.render v ≠ [] := by
  rw [render_core_form]
  intro hc
  rw [List.append_eq_nil, List.append_eq_nil, List.append_eq_nil] at hc
  exact natDigits_ne_nil v.major hc.1.1.1

theorem stripPrefix_of_digit (c : Char) (rest : List Char) (h : isDigit c = true) :
    stripPrefix (c :: rest) = .ok (c :: rest) := by
  simp only [stripPrefix]
  rw [if_neg (by simp [h]), if_neg (by simp [(isDigit_ne h).2.2.2])]

theorem render_ascii (v : Version) (hwf : WfVersion v) :
    isASCII (Version.render v) = true := by
  obtain ⟨_, _, _, hpre, hbld⟩ := hwf
  rw [render_core_form]
  simp only [isASCII, List.all_eq_true, decide_eq_true_eq]
  intro c hc
  simp only [List.mem_append] at hc
  have hdigit : ∀ n, c ∈ natDigits n → c.toNat ≤ 127 := fun n h2 =>
    (isDigit_toNat (natDigits_all_digit n c h2)).2.trans (by omega)
  rcases hc with ((h1 | h1) | h1) | hc | hc
  · exact hdigit _ h1
  · rcases List.mem_cons.mp h1 with h2 | h2
    · subst h2
      decide
    · exact hdigit _ h2
  · rcases List.mem_cons.mp h1 with h2 | h2
    · subst h2
      decide
    · exact hdigit _ h2
  · by_cases hplen : (optList v.prerelease).length > 0
    case neg =>
      rw [if_neg hplen] at hc
      simp at hc
    rw [if_pos hplen] at hc
    rcases List.mem_cons.mp hc with h1 | h1
    · subst h1
      decide
    · have hwfl : ∀ id ∈ optList v.prerelease, WfIdent id := by
        cases hvp : v.prerelease with
        | none => simp [optList]
        | some l =>
          show ∀ id ∈ l, WfIdent id
          exact (hpre l hvp).2
      rcases prerender_chars _ hwfl c h1 with h2 | h2
      · subst h2
        decide
      · exact isIdent_ascii h2
  · by_cases hblen : (optList v.build).length > 0
    case neg =>
      rw [if_neg hblen] at hc
      simp at hc
    rw [if_pos hblen] at hc
    rcases List.mem_cons.mp hc with h1 | h1
    · subst h1
      decide
    · rcases mem_intercalate_dot _ _ h1 with h2 | ⟨pt, hpt, hcp⟩
      · subst h2
        decide
      · have hwfb : pt ≠ [] ∧ isAlphanumericIdentifier pt = true := by
          cases hvb : v.build with
          | none =>
            rw [hvb] at hpt
            simp [optList] at hpt
          | some bl =>
            rw [hvb] at hpt
            exact (hbld bl hvb).2 pt (by simpa [optList] using hpt)
        have h3 : isIdentifierCharacter c = true := by
          have h4 := hwfb.2
          simp only [isAlphanumericIdentifier, List.all_eq_true] at h4
          exact h4 c hcp
        exact isIdent_ascii h3

/-! Round-trip: a well-formed Version parses back from its rendering. -/

theorem render_suffix (v : Version)
    (hpre : ∀ l, v.prerelease = some l → l ≠ [] ∧ ∀ id ∈ l, WfIdent id)
    (hbld : ∀ bl, v.build = some bl →
      bl ≠ [] ∧ ∀ p ∈ bl, p ≠ [] ∧ isAlphanumericIdentifier p = true) :
    ∃ suf,
      ((if (optList v.prerelease).length > 0 then
          '-' :: List.intercalate ['.'] ((optList v.prerelease).map renderIdentifier)
        else []) ++
        (if (optList v.build).length > 0 then
          '+' :: List.intercalate ['.'] (optList v.build)
        else [])) = suf ∧
      parseAfterCore suf = .ok (v.prerelease, v.build) ∧
      (suf = [] ∨ ∃ c r, suf = c :: r ∧ (c = '-' ∨ c = '+')) := by
  cases hvp : v.prerelease with
  | none =>
    cases hvb : v.build with
    | none =>
      exact ⟨[], by simp [optList], rfl, Or.inl rfl⟩
    | some bs =>
      obtain ⟨hbs, hbswf⟩ := hbld bs hvb
      refine ⟨'+' :: List.intercalate ['.'] bs, ?_, ?_, Or.inr ⟨_, _, rfl, Or.inr rfl⟩⟩
      · simp [optList, List.length_pos, hbs]
      · exact parseAfterCore_plus bs hbs hbswf
  | some l =>
    obtain ⟨hl, hlwf⟩ := hpre l hvp
    cases hvb : v.build with
    | none =>
      refine ⟨'-' :: (List.intercalate ['.'] (l.map renderIdentifier) ++ []), ?_, ?_,
        Or.inr ⟨_, _, rfl, Or.inl rfl⟩⟩
      · simp [optList, List.length_pos, hl]
      · exact parseAfterCore_hyphen l hl hlwf [] none (Or.inl ⟨rfl, rfl⟩)
    | some bs =>
      obtain ⟨hbs, hbswf⟩ := hbld bs hvb
      refine ⟨'-' :: (List.intercalate ['.'] (l.map renderIdentifier) ++
          ('+' :: List.intercalate ['.'] bs)), ?_, ?_, Or.inr ⟨_, _, rfl, Or.inl rfl⟩⟩
      · simp [optList, List.length_pos, hl, hbs]
      · exact parseAfterCore_hyphen l hl hlwf _ (some bs)
          (Or.inr ⟨bs, rfl, rfl, hbs, hbswf⟩)

theorem parse_render (v : Version) (h : WfVersion v) :
    parse (Version.render v) 3 = .ok v := by
  obtain ⟨hM, hm, hp, hpre, hbld⟩ := h
  obtain ⟨suf, hsufform, hpac, hhead⟩ := render_suffix v hpre hbld
  have hform : Version.render v =
      (natDigits v.major ++ '.' :: natDigits v.minor ++ '.' :: natDigits v.patch) ++
        suf := by
    rw [render_core_form, hsufform]
  have hallcore := coreChars v.major v.minor v.patch
  have hheadF : ∀ c r, suf = c :: r → isCoreChar c = false := by
    intro c r hcr
    rcases hhead with h1 | ⟨c2, r2, h1, h2⟩
    · rw [h1] at hcr
      exact absurd hcr (by simp)
    · rw [h1] at hcr
      injection hcr with h3 _
      subst h3
      rcases h2 with h2 | h2 <;> subst h2 <;> rfl
  have hTW : (Version.render v).takeWhile isCoreChar =
      natDigits v.major ++ '.' :: natDigits v.minor ++ '.' :: natDigits v.patch := by
    rw [hform, List.takeWhile_append_of_pos hallcore]
    cases hs : suf with
    | nil => simp
    | cons c r => simp [List.takeWhile_cons, hheadF c r hs]
  have hDW : (Version.render v).dropWhile isCoreChar = suf := by
    rw [hform, List.dropWhile_append_of_pos hallcore]
    cases hs : suf with
    | nil => simp
    | cons c r => simp [List.dropWhile_cons, hheadF c r hs]
  have hstrip : stripPrefix (Version.render v) = .ok (Version.render v) := by
    cases hnd : natDigits v.major with
    | nil => exact absurd hnd (natDigits_ne_nil _)
    | cons c cs =>
      have hcd : isDigit c = true := natDigits_all_digit v.major c (by rw [hnd]; simp)
      have hform2 : Version.render v =
          c :: (cs ++ ('.' :: natDigits v.minor ++ '.' :: natDigits v.patch) ++ suf) := by
        rw [hform, hnd]
        simp
      rw [hform2, stripPrefix_of_digit c _ hcd]
  have hnums3 : ((Version.render v).takeWhile isCoreChar).splitOn '.' =
      [natDigits v.major, natDigits v.minor, natDigits v.patch] := by
    rw [hTW, coreStr_splitOn]
  have hguard : ¬((Version.render v).dropWhile isCoreChar ≠ [] ∧
      ((Version.render v).dropWhile isCoreChar).head? ≠ some '-' ∧
      ((Version.render v).dropWhile isCoreChar).head? ≠ some '+') := by
    rw [hDW]
    rcases hhead with h1 | ⟨c, r, h1, h2⟩
    · subst h1
      simp
    · subst h1
      rcases h2 with h2 | h2 <;> subst h2 <;> simp
  have hres := parse_ok_construction (Version.render v) 3 (Version.render v)
    (v.major, v.minor, v.patch) (v.prerelease, v.build)
    (render_ne_nil v) (render_ascii v ⟨hM, hm, hp, hpre, hbld⟩) hstrip
    (by rw [hnums3]; simp) (by rw [hnums3]; simp)
    (by rw [hnums3]; exact parseNums_three v.major v.minor v.patch hM hm hp)
    hguard (by rw [hDW]; exact hpac)
  exact hres

/-- C5: for every string the strict parser accepts, rendering the parsed
Version with the full string projection and strict-parsing it again
succeeds and yields a Version that is StrictEqual to the original, build
metadata included (the reparse in fact yields the identical Version). -/
theorem c5_roundtrip (s : String) (v : Version) (h : Parse s = .ok v) :
    Parse (String.mk (Version.render v)) = .ok v ∧ Version.StrictEqual v v = true := by
  constructor
  · show parse (Version.render v) 3 = .ok v
    exact parse_render v (parse_wf _ _ _ h)
  · simp [Version.StrictEqual, prereleaseEqual_iff]

/-- Witness for C5 at "1.2.3-a.1+b.2". -/
theorem c5_roundtrip_witness :
    Parse (String.mk (Version.render
        ⟨1, 2, 3, some [.alphanumeric ['a'], .numeric 1], some [['b'], ['2']]⟩)) =
      .ok ⟨1, 2, 3, some [.alphanumeric ['a'], .numeric 1], some [['b'], ['2']]⟩ ∧
    Version.StrictEqual
        ⟨1, 2, 3, some [.alphanumeric ['a'], .numeric 1], some [['b'], ['2']]⟩
        ⟨1, 2, 3, some [.alphanumeric ['a'], .numeric 1], some [['b'], ['2']]⟩ = true :=
  c5_roundtrip fullInput _ rfl

end Semver
